import Mathlib

/-!
Verification development for the scoped concurrent cache specification and
for the deterministic test clock of this repository.

The test clock is embedded from `src/src/internal/testing/testClock.ts`.
The scoped cache itself is present in the repository only through its
documentation page (`ScopedCache.ts.md`), so its operational model below is
modelled from the specification's own description of the ledger, the lookup
orchestration, the expiry and eviction policy and the resource lifecycle.
-/

namespace TestClock

/-- Clock state, embedding `Data.make(instant, sleeps)` from
`src/src/internal/testing/testClock.ts`: the current instant in
milliseconds and the queue of pending sleeps, each a pair of the absolute
wake instant and the identifier of the deferred that resumes the sleeping
fiber. -/
structure ClockData where
  instant : Int
  sleeps : List (Int × Nat)
deriving DecidableEq

/-- Model of `TestClockImpl.sleep`: it computes `end = instant + duration`;
if `end > instant` the pair `[end, deferred]` is prepended to the sleep
queue and the fiber awaits the deferred (result `true`), otherwise the
deferred is succeeded immediately without being enqueued (result
`false`). -/
def sleep (deferredId : Nat) (duration : Int) (data : ClockData) :
    ClockData × Bool :=
  let endT := data.instant + duration
  if data.instant < endT then
    ({ instant := data.instant, sleeps := (endT, deferredId) :: data.sleeps }, true)
  else
    (data, false)

/-- Insertion step of the sort used by `TestClockImpl.run`, which sorts the
sleep queue by wake instant (`Chunk.sort` with `number.Order` mapped over
the first component). -/
def insertSleep (x : Int × Nat) : List (Int × Nat) → List (Int × Nat)
  | [] => [x]
  | y :: t => if x.1 ≤ y.1 then x :: y :: t else y :: insertSleep x t

/-- Sorting of the sleep queue by wake instant, as performed at the start of
every iteration of `TestClockImpl.run`. -/
def sortSleeps : List (Int × Nat) → List (Int × Nat)
  | [] => []
  | x :: t => insertSleep x (sortSleeps t)

/-- Model of the recursion of `TestClockImpl.run` once the target instant
`end` has been computed: sort the pending sleeps by wake instant; while the
earliest wake instant is `≤ end`, set the clock to that instant, remove that
sleep from the queue, succeed its deferred, and recurse with the same `end`;
when no due sleep remains, set the clock to `end`. The returned list
collects the resumed sleeps in resumption order. The fuel argument bounds
the recursion depth; since every iteration removes one sleep from the
queue, the queue length (supplied by `run` below) is always sufficient. -/
def runFuel : Nat → Int → ClockData → ClockData × List (Int × Nat)
  | 0, endT, data => ({ instant := endT, sleeps := data.sleeps }, [])
  | fuel + 1, endT, data =>
    match sortSleeps data.sleeps with
    | [] => ({ instant := endT, sleeps := data.sleeps }, [])
    | (i, did) :: tail =>
      if i ≤ endT then
        let r := runFuel fuel endT { instant := i, sleeps := tail }
        (r.1, (i, did) :: r.2)
      else ({ instant := endT, sleeps := data.sleeps }, [])

/-- Model of `TestClockImpl.run` applied to a target instant: runs all
sleeps scheduled on or before the target, in order, and leaves the clock at
the target instant. -/
def run (endT : Int) (data : ClockData) : ClockData × List (Int × Nat) :=
  runFuel data.sleeps.length endT data

/-- Model of `TestClockImpl.adjust`: `run((n) => n + duration)`. -/
def adjust (duration : Int) (data : ClockData) : ClockData × List (Int × Nat) :=
  run (data.instant + duration) data

/-- Model of `TestClockImpl.setTime`: `run(() => instant)`. -/
def setTime (instant : Int) (data : ClockData) : ClockData × List (Int × Nat) :=
  run instant data

end TestClock

namespace Cache

/-- Modelled from the spec: the state of one ledger entry (§3): either
`Pending`, holding a handle to the running computation, or `Complete`,
holding the produced value, the absolute expiry instant (`outcomeTtl`),
creation and last-access instants, and, per §4.2 `refresh`, the identifier
of an in-flight recomputation whose result will supersede this entry
(`none` when no refresh is in flight). Reference counts live with the
per-generation resource records (§4.4), which outlive the ledger slot. -/
inductive EntryState where
  | pending (compId : Nat)
  | complete (value : Nat) (expiresAt : Int) (createdAt : Int)
      (lastAccess : Int) (refreshing : Option Nat)
deriving DecidableEq

/-- Modelled from the spec: a ledger entry (§3): its state plus the
generation number incremented every time the key is recomputed. -/
structure Entry where
  state : EntryState
  generation : Nat
deriving DecidableEq

/-- Modelled from the spec: how a caller entered the cache — via `get`,
via `getOption`, or via `refresh` — which determines the shape of the
outcome delivered to it when a shared computation resolves (§4.2, §7). -/
inductive Mode where
  | viaGet
  | viaGetOption
  | viaRefresh
deriving DecidableEq

/-- Modelled from the spec: one caller awaiting an in-flight computation
(§5 multi-waiter join): the caller identifier and the operation through
which it joined. -/
structure Waiter where
  caller : Nat
  mode : Mode
deriving DecidableEq

/-- Modelled from the spec: an in-flight computation (§4.2): the key it
computes, the generation its result will carry, and the callers currently
awaiting it. -/
structure Comp where
  key : Nat
  generation : Nat
  waiters : List Waiter
deriving DecidableEq

/-- Modelled from the spec: the lifecycle record of one produced value per
`(key, generation)` pair (§4.4, §9): the outstanding-consumer reference
count, the explicit reachable-from-ledger boolean, and a counter of
finalizer runs (the spec's invariant is that this counter never passes 1,
which is proved below rather than assumed). -/
structure Resource where
  key : Nat
  generation : Nat
  refCount : Nat
  reachable : Bool
  finalizeCount : Nat
deriving DecidableEq

/-- Modelled from the spec: the outcome delivered to one caller (§7): a
value handle with its generation, a propagated lookup error, the empty
result of `getOption`, the unit result of `refresh`, or a cancellation
signal. -/
inductive Outcome where
  | ok (value : Nat) (generation : Nat)
  | err (error : Nat)
  | emptyResult
  | okUnit
  | cancelled
deriving DecidableEq

/-- Modelled from the spec: the whole cache state (§3 `CacheState`),
mutated only through whole-state transitions: the capacity bound, the
entry ledger as an association list, the in-flight computations keyed by
computation identifier, the per-generation resource records, hit/miss
statistics, a counter of lookup-function invocations (§8), the outcomes
delivered to callers (newest first, tagged with the join mode), and a
fresh-identifier source for computation ids and generations. -/
structure CacheState where
  capacity : Nat
  entries : List (Nat × Entry)
  comps : List (Nat × Comp)
  resources : List Resource
  hits : Nat
  misses : Nat
  lookupCount : Nat
  results : List (Nat × Mode × Outcome)
  nextId : Nat
deriving DecidableEq

/-- Lookup in an association list, first binding wins. -/
def lookupKey {α : Type} (k : Nat) : List (Nat × α) → Option α
  | [] => none
  | (k', v) :: t => if k' = k then some v else lookupKey k t

/-- Removal of every binding of a key from an association list. -/
def eraseKey {α : Type} (k : Nat) (l : List (Nat × α)) : List (Nat × α) :=
  l.filter (fun p => p.1 ≠ k)

/-- Replacement of the binding of a key in an association list. -/
def setKey {α : Type} (k : Nat) (v : α) (l : List (Nat × α)) : List (Nat × α) :=
  (k, v) :: eraseKey k l

/-- Modelled from the spec: registration of one more waiter on an
in-flight computation (§5 multi-waiter join). -/
def addWaiter (cid : Nat) (w : Waiter) (cs : List (Nat × Comp)) :
    List (Nat × Comp) :=
  cs.map (fun p => if p.1 = cid then (p.1, { p.2 with waiters := w :: p.2.waiters }) else p)

/-- Modelled from the spec: flipping the reachable-from-ledger boolean of
the `(key, generation)` resource to false, and, inside the same atomic
transition (§9), running the finalizer when the reference count is already
zero. A resource that is already unreachable is left untouched. -/
def markUnreachable (k g : Nat) (rs : List Resource) : List Resource :=
  rs.map (fun r =>
    if r.key = k ∧ r.generation = g ∧ r.reachable then
      if r.refCount = 0 then
        { r with reachable := false, finalizeCount := r.finalizeCount + 1 }
      else { r with reachable := false }
    else r)

/-- Modelled from the spec: incrementing the reference count of the
ledger-reachable `(key, generation)` resource, as done when a `get` or
`getOption` hit hands out one more scoped handle (§4.2). -/
def incRef (k g : Nat) (rs : List Resource) : List Resource :=
  rs.map (fun r =>
    if r.key = k ∧ r.generation = g ∧ r.reachable then
      { r with refCount := r.refCount + 1 }
    else r)

/-- Modelled from the spec: release of one scoped handle of the
`(key, generation)` resource (§4.2): the reference count is decremented,
and, inside the same atomic transition (§9), the finalizer runs when the
entry is no longer reachable from the ledger and the count reaches zero. -/
def decRef (k g : Nat) (rs : List Resource) : List Resource :=
  rs.map (fun r =>
    if r.key = k ∧ r.generation = g ∧ 0 < r.refCount then
      if r.reachable = false ∧ r.refCount = 1 then
        { r with refCount := r.refCount - 1, finalizeCount := r.finalizeCount + 1 }
      else { r with refCount := r.refCount - 1 }
    else r)

/-- Whether an entry is in the `Complete` state. -/
def isCompleteE (e : Entry) : Bool :=
  match e.state with
  | .complete _ _ _ _ _ => true
  | .pending _ => false

/-- Number of `Complete` entries in the ledger; only these count toward
eviction pressure (§3). -/
def completeCount (l : List (Nat × Entry)) : Nat :=
  l.countP (fun p => isCompleteE p.2)

/-- Number of `Pending` entries in the ledger. -/
def pendingCount (l : List (Nat × Entry)) : Nat :=
  l.countP (fun p => !isCompleteE p.2)

/-- Modelled from the spec: selection of the least-recently-used
`Complete` entry (§4.3): the key of the `Complete` entry with the minimal
`lastAccess` instant; `Pending` entries are never candidates. -/
def lruOf : List (Nat × Entry) → Option (Nat × Int)
  | [] => none
  | (k, e) :: t =>
    match e.state with
    | .pending _ => lruOf t
    | .complete _ _ _ la _ =>
      match lruOf t with
      | none => some (k, la)
      | some (k', la') => if la' ≤ la then some (k', la') else some (k, la)

/-- Modelled from the spec: eviction of the least-recently-used `Complete`
entry (§4.3): its ledger slot is removed and its resource is marked
unreachable, handing finalization off to the lifecycle adapter; eviction
never blocks on the reference count. -/
def evictOne (s : CacheState) : CacheState :=
  match lruOf s.entries with
  | none => s
  | some (k, _) =>
    let g := match lookupKey k s.entries with
      | some e => e.generation
      | none => 0
    { s with entries := eraseKey k s.entries,
             resources := markUnreachable k g s.resources }

/-- Modelled from the spec: the eviction loop run after an insertion
(§4.3): while the number of `Complete` entries exceeds the capacity, the
least-recently-used `Complete` entry is evicted. The fuel argument bounds
the loop; the ledger size, supplied at every call site, is always
sufficient. -/
def evictLoop : Nat → CacheState → CacheState
  | 0, s => s
  | fuel + 1, s =>
    if s.capacity < completeCount s.entries then evictLoop fuel (evictOne s)
    else s

/-- Modelled from the spec: `get(key)` (§4.2), as the atomic ledger
transition taken at call time. On a `Complete`, unexpired entry: count a
hit, touch recency, increment the reference count and deliver a handle to
the existing value. On a `Pending` entry: count a hit and join the
in-flight computation. On a `Complete` but expired entry: count a miss
and either join the in-flight refresh when one exists, or drop the stale
slot (finalization stays gated by its own reference count) and install a
fresh `Pending` entry, invoking the lookup function. On an absent key:
count a miss, install a `Pending` entry and invoke the lookup function. -/
def getStep (c k : Nat) (now : Int) (s : CacheState) : CacheState :=
  match lookupKey k s.entries with
  | some e =>
    match e.state with
    | .pending cid =>
      { s with hits := s.hits + 1, comps := addWaiter cid ⟨c, .viaGet⟩ s.comps }
    | .complete v exp cAt _ refr =>
      if now < exp then
        { s with hits := s.hits + 1,
                 entries := setKey k ⟨.complete v exp cAt now refr, e.generation⟩ s.entries,
                 resources := incRef k e.generation s.resources,
                 results := (c, .viaGet, .ok v e.generation) :: s.results }
      else
        match refr with
        | some cid =>
          { s with misses := s.misses + 1, comps := addWaiter cid ⟨c, .viaGet⟩ s.comps }
        | none =>
          { s with misses := s.misses + 1,
                   entries := setKey k ⟨.pending s.nextId, s.nextId⟩ s.entries,
                   resources := markUnreachable k e.generation s.resources,
                   comps := (s.nextId, ⟨k, s.nextId, [⟨c, .viaGet⟩]⟩) :: s.comps,
                   lookupCount := s.lookupCount + 1,
                   nextId := s.nextId + 1 }
  | none =>
    { s with misses := s.misses + 1,
             entries := setKey k ⟨.pending s.nextId, s.nextId⟩ s.entries,
             comps := (s.nextId, ⟨k, s.nextId, [⟨c, .viaGet⟩]⟩) :: s.comps,
             lookupCount := s.lookupCount + 1,
             nextId := s.nextId + 1 }

/-- Modelled from the spec: `getOption(key)` (§4.2, §7): same ledger
inspection as `get` but it never starts a new computation; on an absent or
expired key it delivers the empty result immediately, on a `Pending` entry
it joins the in-flight computation with the folding join mode, and on a
`Complete` unexpired entry it behaves as a `get` hit. -/
def getOptionStep (c k : Nat) (now : Int) (s : CacheState) : CacheState :=
  match lookupKey k s.entries with
  | some e =>
    match e.state with
    | .pending cid =>
      { s with hits := s.hits + 1, comps := addWaiter cid ⟨c, .viaGetOption⟩ s.comps }
    | .complete v exp cAt _ refr =>
      if now < exp then
        { s with hits := s.hits + 1,
                 entries := setKey k ⟨.complete v exp cAt now refr, e.generation⟩ s.entries,
                 resources := incRef k e.generation s.resources,
                 results := (c, .viaGetOption, .ok v e.generation) :: s.results }
      else
        { s with misses := s.misses + 1,
                 results := (c, .viaGetOption, .emptyResult) :: s.results }
  | none =>
    { s with misses := s.misses + 1,
             results := (c, .viaGetOption, .emptyResult) :: s.results }

/-- Modelled from the spec: `refresh(key)` (§4.2): unconditionally starts a
new computation for the key under a new generation, unless one is already
in flight, in which case the caller joins it (at most one concurrent
computation per key, §5). While the new computation runs, a `Complete`
entry keeps serving `get`/`getOption`; on an absent key a fresh `Pending`
entry is installed. -/
def refreshStep (c k : Nat) (s : CacheState) : CacheState :=
  match lookupKey k s.entries with
  | some e =>
    match e.state with
    | .pending cid =>
      { s with comps := addWaiter cid ⟨c, .viaRefresh⟩ s.comps }
    | .complete v exp cAt la refr =>
      match refr with
      | some cid =>
        { s with comps := addWaiter cid ⟨c, .viaRefresh⟩ s.comps }
      | none =>
        { s with entries := setKey k ⟨.complete v exp cAt la (some s.nextId), e.generation⟩ s.entries,
                 comps := (s.nextId, ⟨k, s.nextId, [⟨c, .viaRefresh⟩]⟩) :: s.comps,
                 lookupCount := s.lookupCount + 1,
                 nextId := s.nextId + 1 }
  | none =>
    { s with misses := s.misses + 1,
             entries := setKey k ⟨.pending s.nextId, s.nextId⟩ s.entries,
             comps := (s.nextId, ⟨k, s.nextId, [⟨c, .viaRefresh⟩]⟩) :: s.comps,
             lookupCount := s.lookupCount + 1,
             nextId := s.nextId + 1 }

/-- Modelled from the spec: the outcome delivered to one waiter when the
shared computation succeeds (§4.2): `refresh` callers receive unit,
`get`/`getOption` callers receive a handle to the value. -/
def successOutcome (v g : Nat) (m : Mode) : Outcome :=
  match m with
  | .viaRefresh => .okUnit
  | _ => .ok v g

/-- Modelled from the spec: completion of an in-flight computation with a
successful value (§4.2, §4.3): the ledger slot transitions to `Complete`
(or is atomically swapped to the new generation when the computation was a
refresh, marking the superseded generation's resource unreachable), the
expiry instant is `now + ttl` with the outcome-dependent duration `d`, a
fresh resource record is created whose reference count equals the number
of handle-receiving waiters, every waiter is resumed with its outcome, and
the eviction loop then enforces the capacity bound. -/
def completeSuccessStep (cid v : Nat) (d now : Int) (s : CacheState) : CacheState :=
  match lookupKey cid s.comps with
  | none => s
  | some comp =>
    match lookupKey comp.key s.entries with
    | some e =>
      match e.state with
      | .pending pcid =>
        if pcid = cid then
          evictLoop s.entries.length
            { s with
              entries := setKey comp.key
                ⟨.complete v (now + d) now now none, comp.generation⟩ s.entries,
              comps := eraseKey cid s.comps,
              resources := ⟨comp.key, comp.generation,
                (comp.waiters.filter (fun w => w.mode ≠ .viaRefresh)).length,
                true, 0⟩ :: s.resources,
              results := comp.waiters.map
                (fun w => (w.caller, w.mode, successOutcome v comp.generation w.mode))
                ++ s.results }
        else s
      | .complete _ _ _ _ refr =>
        if refr = some cid then
          evictLoop s.entries.length
            { s with
              entries := setKey comp.key
                ⟨.complete v (now + d) now now none, comp.generation⟩ s.entries,
              comps := eraseKey cid s.comps,
              resources := ⟨comp.key, comp.generation,
                (comp.waiters.filter (fun w => w.mode ≠ .viaRefresh)).length,
                true, 0⟩ :: markUnreachable comp.key e.generation s.resources,
              results := comp.waiters.map
                (fun w => (w.caller, w.mode, successOutcome v comp.generation w.mode))
                ++ s.results }
        else s
    | none => s

/-- Modelled from the spec: the outcome delivered to one waiter when the
shared computation fails (§7): `getOption` callers fold the error into the
empty result, every other caller receives the error verbatim. -/
def failureOutcome (error : Nat) (m : Mode) : Outcome :=
  match m with
  | .viaGetOption => .emptyResult
  | _ => .err error

/-- Modelled from the spec: completion of an in-flight computation with a
failure (§4.2, §7): the entry is removed from the ledger entirely (a
refresh failure instead leaves the previously completed value in place and
clears the in-flight marker), no resource record is created, and the error
is propagated verbatim to every joined caller. -/
def completeFailStep (cid error : Nat) (s : CacheState) : CacheState :=
  match lookupKey cid s.comps with
  | none => s
  | some comp =>
    match lookupKey comp.key s.entries with
    | some e =>
      match e.state with
      | .pending pcid =>
        if pcid = cid then
          { s with entries := eraseKey comp.key s.entries,
                   comps := eraseKey cid s.comps,
                   results := comp.waiters.map
                     (fun w => (w.caller, w.mode, failureOutcome error w.mode))
                     ++ s.results }
        else s
      | .complete v exp cAt la refr =>
        if refr = some cid then
          { s with entries := setKey comp.key
                     ⟨.complete v exp cAt la none, e.generation⟩ s.entries,
                   comps := eraseKey cid s.comps,
                   results := comp.waiters.map
                     (fun w => (w.caller, w.mode, failureOutcome error w.mode))
                     ++ s.results }
        else s
    | none => s

/-- Modelled from the spec: release of a scoped handle for a
`(key, generation)` pair (§4.2): the reference count is decremented and,
when the entry is no longer reachable from the ledger and the count
reaches zero, the finalizer runs. -/
def releaseStep (k g : Nat) (s : CacheState) : CacheState :=
  { s with resources := decRef k g s.resources }

/-- Modelled from the spec: the outcome delivered to one waiter when the
shared computation is cancelled by `invalidate` (§7): `getOption` callers
fold the cancellation into the empty result, every other joiner observes
the cancellation signal. -/
def cancelOutcome (m : Mode) : Outcome :=
  match m with
  | .viaGetOption => .emptyResult
  | _ => .cancelled

/-- Modelled from the spec: `invalidate(key)` (§4.2): the ledger slot is
removed immediately; an in-flight computation for the key is cancelled and
its joiners receive a cancellation signal; a `Complete` value becomes
unreachable but finalizes only when its reference count drains. -/
def invalidateStep (k : Nat) (s : CacheState) : CacheState :=
  match lookupKey k s.entries with
  | none => s
  | some e =>
    match e.state with
    | .pending cid =>
      match lookupKey cid s.comps with
      | some comp =>
        { s with entries := eraseKey k s.entries,
                 comps := eraseKey cid s.comps,
                 results := comp.waiters.map
                   (fun w => (w.caller, w.mode, cancelOutcome w.mode)) ++ s.results }
      | none => { s with entries := eraseKey k s.entries }
    | .complete _ _ _ _ refr =>
      match refr with
      | none =>
        { s with entries := eraseKey k s.entries,
                 resources := markUnreachable k e.generation s.resources }
      | some cid =>
        match lookupKey cid s.comps with
        | some comp =>
          { s with entries := eraseKey k s.entries,
                   resources := markUnreachable k e.generation s.resources,
                   comps := eraseKey cid s.comps,
                   results := comp.waiters.map
                     (fun w => (w.caller, w.mode, cancelOutcome w.mode)) ++ s.results }
        | none =>
          { s with entries := eraseKey k s.entries,
                   resources := markUnreachable k e.generation s.resources }

/-- Modelled from the spec: `invalidateAll()` (§4.2): `invalidate` applied
to every key as one atomic ledger transition. -/
def invalidateAllStep (s : CacheState) : CacheState :=
  (s.entries.map Prod.fst).foldl (fun st k => invalidateStep k st) s

/-- Modelled from the spec: `contains(key)` (§4.1): true for a `Pending`
entry and for a `Complete` entry that is not expired at the current
instant; false for an absent key. -/
def containsFn (k : Nat) (now : Int) (s : CacheState) : Bool :=
  match lookupKey k s.entries with
  | none => false
  | some e =>
    match e.state with
    | .pending _ => true
    | .complete _ exp _ _ _ => decide (now < exp)

/-- Modelled from the spec: `size()` (§4.1): the number of ledger
entries. -/
def sizeFn (s : CacheState) : Nat :=
  s.entries.length

/-- Modelled from the spec: one atomic transition of the cache: the four
public decision points of §4.2 plus completion of an in-flight computation,
handle release, and invalidation. Concurrency is modelled as arbitrary
interleavings of these serialized transitions (§4.1, §5). The `now`
arguments are the instants read from the external clock; the `d` argument
of a successful completion is the outcome-dependent time-to-live duration
(§4.3). -/
inductive Act where
  | get (c k : Nat) (now : Int)
  | getOption (c k : Nat) (now : Int)
  | refresh (c k : Nat)
  | completeSuccess (cid v : Nat) (d now : Int)
  | completeFail (cid error : Nat)
  | release (k g : Nat)
  | invalidate (k : Nat)
  | invalidateAll
deriving DecidableEq

/-- Modelled from the spec: the transition function dispatching one atomic
action. -/
def step : Act → CacheState → CacheState
  | .get c k now, s => getStep c k now s
  | .getOption c k now, s => getOptionStep c k now s
  | .refresh c k, s => refreshStep c k s
  | .completeSuccess cid v d now, s => completeSuccessStep cid v d now s
  | .completeFail cid error, s => completeFailStep cid error s
  | .release k g, s => releaseStep k g s
  | .invalidate k, s => invalidateStep k s
  | .invalidateAll, s => invalidateAllStep s

/-- Modelled from the spec: execution of a sequence of atomic actions. -/
def runActs (l : List Act) (s : CacheState) : CacheState :=
  l.foldl (fun st a => step a st) s

/-- Modelled from the spec: the freshly constructed cache (§6): empty
ledger, no in-flight computation, zeroed statistics. -/
def initCache (cap : Nat) : CacheState :=
  ⟨cap, [], [], [], 0, 0, 0, [], 0⟩

/-- Modelled from the spec: a sequence of `get` calls for one key by
several callers, each an atomic decision step, used to model concurrent
callers racing on the same key (§5). -/
def getMany (k : Nat) (cs : List (Nat × Int)) (s : CacheState) : CacheState :=
  cs.foldl (fun st ci => getStep ci.1 k ci.2 st) s

/-- Modelled from the spec: the exactly-once finalization discipline of
§4.4: the finalizer of a resource has run exactly once when the entry is
unreachable from the ledger and its reference count is zero, and has not
run otherwise. -/
def ResOK (r : Resource) : Prop :=
  r.finalizeCount = if r.reachable = false ∧ r.refCount = 0 then 1 else 0

/-- Decidability of the finalization discipline, so concrete states can be
checked by evaluation. -/
instance (r : Resource) : Decidable (ResOK r) := by
  unfold ResOK; infer_instance

/-- Modelled from the spec: the error-propagation discipline of `getOption`
(§7): an outcome delivered to a caller that joined via `getOption` is
always either a value handle or the empty result — never an error and
never a cancellation signal. -/
def OptOK (x : Nat × Mode × Outcome) : Prop :=
  x.2.1 = Mode.viaGetOption →
    (∃ v g, x.2.2 = Outcome.ok v g) ∨ x.2.2 = Outcome.emptyResult

end Cache

namespace TestClock

theorem length_insertSleep (x : Int × Nat) (l : List (Int × Nat)) :
    (insertSleep x l).length = l.length + 1 := by
  induction l with
  | nil => rfl
  | cons y t ih =>
    simp only [insertSleep]
    split
    · simp
    · simp [ih]

theorem perm_insertSleep (x : Int × Nat) (l : List (Int × Nat)) :
    (insertSleep x l).Perm (x :: l) := by
  induction l with
  | nil => exact List.Perm.refl _
  | cons y t ih =>
    simp only [insertSleep]
    split
    · exact List.Perm.refl _
    · exact (ih.cons y).trans (List.Perm.swap x y t)

theorem perm_sortSleeps (l : List (Int × Nat)) : (sortSleeps l).Perm l := by
  induction l with
  | nil => exact List.Perm.refl _
  | cons x t ih => exact (perm_insertSleep x (sortSleeps t)).trans (ih.cons x)

theorem length_sortSleeps (l : List (Int × Nat)) :
    (sortSleeps l).length = l.length :=
  (perm_sortSleeps l).length_eq

theorem pairwise_insertSleep (x : Int × Nat) (l : List (Int × Nat))
    (h : List.Pairwise (fun a b => a.1 ≤ b.1) l) :
    List.Pairwise (fun a b => a.1 ≤ b.1) (insertSleep x l) := by
  induction l with
  | nil => simp [insertSleep]
  | cons y t ih =>
    rcases List.pairwise_cons.mp h with ⟨hy, ht⟩
    simp only [insertSleep]
    split
    case isTrue hxy =>
      refine List.pairwise_cons.mpr ⟨?_, h⟩
      intro b hb
      rcases List.mem_cons.mp hb with rfl | hb
      · exact hxy
      · exact le_trans hxy (hy b hb)
    case isFalse hxy =>
      refine List.pairwise_cons.mpr ⟨?_, ih ht⟩
      intro b hb
      rcases List.mem_cons.mp ((perm_insertSleep x t).subset hb) with rfl | hb
      · omega
      · exact hy b hb

theorem pairwise_sortSleeps (l : List (Int × Nat)) :
    List.Pairwise (fun a b => a.1 ≤ b.1) (sortSleeps l) := by
  induction l with
  | nil => simp [sortSleeps]
  | cons x t ih => exact pairwise_insertSleep x _ ih

theorem runFuel_spec (fuel : Nat) : ∀ (endT : Int) (data : ClockData),
    data.sleeps.length ≤ fuel →
    (runFuel fuel endT data).1.instant = endT ∧
    ((runFuel fuel endT data).2).Perm
      (data.sleeps.filter (fun p => decide (p.1 ≤ endT))) ∧
    ((runFuel fuel endT data).1.sleeps).Perm
      (data.sleeps.filter (fun p => decide (endT < p.1))) ∧
    List.Pairwise (fun a b => a.1 ≤ b.1) (runFuel fuel endT data).2 := by
  induction fuel with
  | zero =>
    intro endT data hlen
    have hnil : data.sleeps = [] := List.length_eq_zero.mp (Nat.le_zero.mp hlen)
    simp [runFuel, hnil]
  | succ n ih =>
    intro endT data hlen
    cases hsort : sortSleeps data.sleeps with
    | nil =>
      have hlen0 : data.sleeps.length = 0 := by
        have h := length_sortSleeps data.sleeps
        rw [hsort] at h
        simpa using h.symm
      have hnil : data.sleeps = [] := List.length_eq_zero.mp hlen0
      simp [runFuel, hnil, sortSleeps]
    | cons hd tail =>
      obtain ⟨i, did⟩ := hd
      have hperm : ((i, did) :: tail).Perm data.sleeps := by
        have h := perm_sortSleeps data.sleeps
        rwa [hsort] at h
      have hpw : List.Pairwise (fun a b => a.1 ≤ b.1) ((i, did) :: tail) := by
        have h := pairwise_sortSleeps data.sleeps
        rwa [hsort] at h
      by_cases hle : i ≤ endT
      · have hlen' : tail.length ≤ n := by
          have h := length_sortSleeps data.sleeps
          rw [hsort] at h
          simp only [List.length_cons] at h
          omega
        obtain ⟨h1, h2, h3, h4⟩ := ih endT ⟨i, tail⟩ hlen'
        have hrw : runFuel (n + 1) endT data =
            ((runFuel n endT ⟨i, tail⟩).1,
             (i, did) :: (runFuel n endT ⟨i, tail⟩).2) := by
          simp only [runFuel, hsort, if_pos hle]
        rw [hrw]
        have hfle : (((i, did) :: tail).filter (fun p => decide (p.1 ≤ endT))) =
            (i, did) :: tail.filter (fun p => decide (p.1 ≤ endT)) := by
          simp [hle]
        have hfgt : (((i, did) :: tail).filter (fun p => decide (endT < p.1))) =
            tail.filter (fun p => decide (endT < p.1)) := by
          simp [not_lt.mpr hle]
        refine ⟨h1, ?_, ?_, ?_⟩
        · exact (h2.cons (i, did)).trans (by rw [← hfle]; exact hperm.filter _)
        · exact h3.trans (by rw [← hfgt]; exact hperm.filter _)
        · refine List.pairwise_cons.mpr ⟨?_, h4⟩
          intro b hb
          have hbt : b ∈ tail.filter (fun p => decide (p.1 ≤ endT)) := h2.subset hb
          exact (List.pairwise_cons.mp hpw).1 b (List.mem_of_mem_filter hbt)
      · have hrw : runFuel (n + 1) endT data =
            ({ instant := endT, sleeps := data.sleeps }, []) := by
          simp only [runFuel, hsort, if_neg hle]
        rw [hrw]
        have hall : ∀ b ∈ data.sleeps, endT < b.1 := by
          intro b hb
          rcases List.mem_cons.mp (hperm.symm.subset hb) with rfl | hb'
          · omega
          · have := (List.pairwise_cons.mp hpw).1 b hb'
            omega
        refine ⟨rfl, ?_, ?_, List.Pairwise.nil⟩
        · have : data.sleeps.filter (fun p => decide (p.1 ≤ endT)) = [] := by
            rw [List.filter_eq_nil_iff]
            intro b hb
            simpa using not_le.mpr (hall b hb)
          rw [this]
        · have : data.sleeps.filter (fun p => decide (endT < p.1)) = data.sleeps := by
            rw [List.filter_eq_self]
            intro b hb
            simpa using hall b hb
          rw [this]

/-- C10: for the test clock, `run` to a target instant (hence `adjust` by a
duration and `setTime` to an instant) advances the clock time to the
target and resumes exactly those pending sleeps whose wake instant is less
than or equal to the target, one at a time in nondecreasing order of wake
instant, while later-scheduled sleeps remain pending; and a sleep whose
duration is zero or negative completes immediately without being
enqueued. -/
theorem testClock_run_resumes_due_sleeps_in_order :
    (∀ (endT : Int) (data : ClockData),
      (run endT data).1.instant = endT ∧
      ((run endT data).2).Perm
        (data.sleeps.filter (fun p => decide (p.1 ≤ endT))) ∧
      ((run endT data).1.sleeps).Perm
        (data.sleeps.filter (fun p => decide (endT < p.1))) ∧
      List.Pairwise (fun a b => a.1 ≤ b.1) (run endT data).2) ∧
    (∀ (d : Int) (data : ClockData), adjust d data = run (data.instant + d) data) ∧
    (∀ (t : Int) (data : ClockData), setTime t data = run t data) ∧
    (∀ (did : Nat) (d : Int) (data : ClockData), d ≤ 0 →
      sleep did d data = (data, false)) ∧
    (∀ (did : Nat) (d : Int) (data : ClockData), 0 < d →
      sleep did d data =
        ({ instant := data.instant,
           sleeps := (data.instant + d, did) :: data.sleeps }, true)) := by
  refine ⟨?_, fun _ _ => rfl, fun _ _ => rfl, ?_, ?_⟩
  · intro endT data
    exact runFuel_spec data.sleeps.length endT data le_rfl
  · intro did d data hd
    simp only [sleep]
    rw [if_neg (by omega)]
  · intro did d data hd
    simp only [sleep]
    rw [if_pos (by omega)]

/-- Witness for C10: a concrete clock at instant 0 with sleeps scheduled at
3, 7 and 1; advancing to 5 resumes the sleeps at 1 and 3 in that order and
leaves the sleep at 7 pending, and a zero-duration sleep completes
immediately. -/
theorem testClock_run_resumes_due_sleeps_in_order_witness :
    (run 5 ⟨0, [(3, 0), (7, 1), (1, 2)]⟩).1.instant = 5 ∧
    ((run 5 ⟨0, [(3, 0), (7, 1), (1, 2)]⟩).2).Perm
      ([(3, 0), (7, 1), (1, 2)].filter (fun p => decide (p.1 ≤ (5 : Int)))) ∧
    ((run 5 ⟨0, [(3, 0), (7, 1), (1, 2)]⟩).1.sleeps).Perm
      ([(3, 0), (7, 1), (1, 2)].filter (fun p => decide ((5 : Int) < p.1))) ∧
    List.Pairwise (fun a b => a.1 ≤ b.1) (run 5 ⟨0, [(3, 0), (7, 1), (1, 2)]⟩).2 ∧
    sleep 9 0 ⟨2, [(4, 5)]⟩ = (⟨2, [(4, 5)]⟩, false) ∧
    sleep 9 6 ⟨2, [(4, 5)]⟩ = (⟨2, [(8, 9), (4, 5)]⟩, true) := by
  obtain ⟨hrun, _, _, hzero, hpos⟩ := testClock_run_resumes_due_sleeps_in_order
  obtain ⟨h1, h2, h3, h4⟩ := hrun 5 ⟨0, [(3, 0), (7, 1), (1, 2)]⟩
  exact ⟨h1, h2, h3, h4, hzero 9 0 ⟨2, [(4, 5)]⟩ (by decide),
    by simpa using hpos 9 6 ⟨2, [(4, 5)]⟩ (by decide)⟩

end TestClock

namespace Cache

theorem lookupKey_some_mem {α : Type} {k : Nat} {v : α} :
    ∀ {l : List (Nat × α)}, lookupKey k l = some v → (k, v) ∈ l := by
  intro l
  induction l with
  | nil => intro h; simp [lookupKey] at h
  | cons p t ih =>
    intro h
    simp only [lookupKey] at h
    split at h
    · rename_i heq
      cases h
      exact List.mem_cons.mpr (Or.inl (by rw [← heq]))
    · exact List.mem_cons_of_mem _ (ih h)

theorem eraseKey_of_lookup_none {α : Type} {k : Nat} :
    ∀ {l : List (Nat × α)}, lookupKey k l = none → eraseKey k l = l := by
  intro l
  induction l with
  | nil => intro _; rfl
  | cons p t ih =>
    intro h
    simp only [lookupKey] at h
    split at h
    · exact absurd h (by simp)
    · rename_i hne
      simp only [eraseKey, List.filter_cons]
      rw [if_pos (by simpa using hne)]
      have := ih h
      simp only [eraseKey] at this
      rw [this]

theorem lookupKey_eraseKey_self {α : Type} (k : Nat) (l : List (Nat × α)) :
    lookupKey k (eraseKey k l) = none := by
  induction l with
  | nil => rfl
  | cons p t ih =>
    simp only [eraseKey, List.filter_cons]
    split
    · rename_i h
      simp only [lookupKey]
      rw [if_neg (by simpa using h)]
      exact ih
    · exact ih

theorem lookupKey_eraseKey_ne {α : Type} {j k : Nat} (hne : j ≠ k)
    (l : List (Nat × α)) : lookupKey k (eraseKey j l) = lookupKey k l := by
  induction l with
  | nil => rfl
  | cons p t ih =>
    simp only [eraseKey, List.filter_cons]
    by_cases hp : p.1 = j
    · rw [if_neg (by simp [hp])]
      simp only [lookupKey]
      rw [if_neg (by rw [hp]; exact hne)]
      exact ih
    · rw [if_pos (by simpa using hp)]
      simp only [lookupKey]
      split
      · rfl
      · exact ih

theorem lookupKey_setKey_self {α : Type} (k : Nat) (v : α) (l : List (Nat × α)) :
    lookupKey k (setKey k v l) = some v := by
  simp [setKey, lookupKey]

theorem lookupKey_setKey_ne {α : Type} {j k : Nat} (hne : j ≠ k) (v : α)
    (l : List (Nat × α)) : lookupKey k (setKey j v l) = lookupKey k l := by
  simp only [setKey, lookupKey]
  rw [if_neg hne]
  exact lookupKey_eraseKey_ne hne l

theorem countP_eraseKey_le {α : Type} (p : Nat × α → Bool) (k : Nat)
    (l : List (Nat × α)) : (eraseKey k l).countP p ≤ l.countP p := by
  induction l with
  | nil => exact Nat.le_refl _
  | cons x t ih =>
    simp only [eraseKey, List.filter_cons]
    split
    · simp only [List.countP_cons]
      exact Nat.add_le_add ih (Nat.le_refl _)
    · simp only [List.countP_cons]
      exact Nat.le_trans ih (Nat.le_add_right _ _)

theorem countP_eraseKey_add_one_le {α : Type} {p : Nat × α → Bool} {k : Nat}
    {e : α} : ∀ {l : List (Nat × α)}, (k, e) ∈ l → p (k, e) = true →
    (eraseKey k l).countP p + 1 ≤ l.countP p := by
  intro l
  induction l with
  | nil => intro h; simp at h
  | cons x t ih =>
    intro hmem hp
    rcases List.mem_cons.mp hmem with heq | hmem'
    · subst heq
      simp only [eraseKey, List.filter_cons]
      rw [if_neg (by simp)]
      have h1 := countP_eraseKey_le p k t
      have h2 : ((k, e) :: t).countP p = t.countP p + 1 := by
        simp [List.countP_cons, hp]
      simp only [eraseKey] at h1
      omega
    · by_cases hx : x.1 = k
      · simp only [eraseKey, List.filter_cons]
        rw [if_neg (by simpa using hx)]
        have := ih hmem' hp
        simp only [eraseKey] at this
        simp only [List.countP_cons]
        split <;> omega
      · simp only [eraseKey, List.filter_cons]
        rw [if_pos (by simpa using hx)]
        have := ih hmem' hp
        simp only [eraseKey] at this
        simp only [List.countP_cons]
        split <;> omega

theorem countP_lt_length {α : Type} {p : α → Bool} {x : α} :
    ∀ {l : List α}, x ∈ l → p x = false → l.countP p < l.length := by
  intro l
  induction l with
  | nil => intro h; simp at h
  | cons y t ih =>
    intro hmem hp
    rcases List.mem_cons.mp hmem with heq | hmem'
    · subst heq
      have h1 := List.countP_le_length (l := t) (p := p)
      simp [List.countP_cons, hp, List.length_cons]
      omega
    · have := ih hmem' hp
      simp only [List.countP_cons, List.length_cons]
      split <;> omega

theorem resOK_markUnreachable {k g : Nat} {rs : List Resource}
    (h : ∀ r ∈ rs, ResOK r) : ∀ r ∈ markUnreachable k g rs, ResOK r := by
  intro r hr
  rcases List.mem_map.mp hr with ⟨r₀, hr₀, heq⟩
  have h₀ := h r₀ hr₀
  unfold ResOK at h₀
  subst heq
  by_cases hc : r₀.key = k ∧ r₀.generation = g ∧ r₀.reachable
  · rw [if_neg (by simp [hc.2.2])] at h₀
    rw [if_pos hc]
    by_cases hrc : r₀.refCount = 0
    · rw [if_pos hrc]
      unfold ResOK
      simp [hrc, h₀]
    · rw [if_neg hrc]
      unfold ResOK
      simp [hrc, h₀]
  · rw [if_neg hc]
    exact h r₀ hr₀

theorem resOK_incRef {k g : Nat} {rs : List Resource}
    (h : ∀ r ∈ rs, ResOK r) : ∀ r ∈ incRef k g rs, ResOK r := by
  intro r hr
  rcases List.mem_map.mp hr with ⟨r₀, hr₀, heq⟩
  have h₀ := h r₀ hr₀
  unfold ResOK at h₀
  subst heq
  by_cases hc : r₀.key = k ∧ r₀.generation = g ∧ r₀.reachable
  · rw [if_neg (by simp [hc.2.2])] at h₀
    rw [if_pos hc]
    unfold ResOK
    simp [hc.2.2, h₀]
  · rw [if_neg hc]
    exact h r₀ hr₀

theorem resOK_decRef {k g : Nat} {rs : List Resource}
    (h : ∀ r ∈ rs, ResOK r) : ∀ r ∈ decRef k g rs, ResOK r := by
  intro r hr
  rcases List.mem_map.mp hr with ⟨r₀, hr₀, heq⟩
  have h₀ := h r₀ hr₀
  unfold ResOK at h₀
  subst heq
  by_cases hc : r₀.key = k ∧ r₀.generation = g ∧ 0 < r₀.refCount
  · have hfc : r₀.finalizeCount = 0 := by
      rw [if_neg ?_] at h₀
      · exact h₀
      · rintro ⟨-, hz⟩
        have := hc.2.2
        omega
    rw [if_pos hc]
    by_cases hfin : r₀.reachable = false ∧ r₀.refCount = 1
    · rw [if_pos hfin]
      unfold ResOK
      simp [hfin.1, hfin.2, hfc]
    · rw [if_neg hfin]
      unfold ResOK
      simp only
      rw [if_neg ?_]
      · exact hfc
      · rintro ⟨hreach, hzero⟩
        have := hc.2.2
        exact hfin ⟨hreach, by omega⟩
  · rw [if_neg hc]
    exact h r₀ hr₀

theorem resOK_fresh (k g rc : Nat) : ResOK ⟨k, g, rc, true, 0⟩ := by
  unfold ResOK
  rw [if_neg (by simp)]

end Cache

namespace Cache

theorem length_eq_complete_add_pending (l : List (Nat × Entry)) :
    l.length = completeCount l + pendingCount l := by
  induction l with
  | nil => rfl
  | cons p t ih =>
    simp only [completeCount, pendingCount, List.countP_cons, List.length_cons] at ih ⊢
    cases h : isCompleteE p.2 <;> simp [h] <;> omega

theorem addWaiter_lookup_self {cid : Nat} {w : Waiter} {comp : Comp} :
    ∀ {cs : List (Nat × Comp)}, lookupKey cid cs = some comp →
    lookupKey cid (addWaiter cid w cs) =
      some { comp with waiters := w :: comp.waiters } := by
  intro cs
  induction cs with
  | nil => intro h; simp [lookupKey] at h
  | cons p t ih =>
    intro h
    simp only [lookupKey] at h
    simp only [addWaiter, List.map_cons]
    by_cases hp : p.1 = cid
    · rw [if_pos hp] at h
      cases h
      rw [if_pos hp]
      simp only [lookupKey]
      rw [if_pos hp]
    · rw [if_neg hp] at h
      rw [if_neg hp]
      simp only [lookupKey]
      rw [if_neg hp]
      exact ih h

theorem addWaiter_keys (cid : Nat) (w : Waiter) (cs : List (Nat × Comp)) :
    (addWaiter cid w cs).map Prod.fst = cs.map Prod.fst := by
  induction cs with
  | nil => rfl
  | cons p t ih =>
    simp only [addWaiter, List.map_cons] at ih ⊢
    split <;> simp [ih]

theorem lruOf_mem : ∀ {l : List (Nat × Entry)} {k : Nat} {la : Int},
    lruOf l = some (k, la) → ∃ e, (k, e) ∈ l ∧ isCompleteE e = true := by
  intro l
  induction l with
  | nil => intro k la h; simp [lruOf] at h
  | cons p t ih =>
    intro k la h
    obtain ⟨k₀, st₀, g₀⟩ := p
    cases st₀ with
    | pending cid =>
      simp only [lruOf] at h
      obtain ⟨e, he, hc⟩ := ih h
      exact ⟨e, List.mem_cons_of_mem _ he, hc⟩
    | complete v exp cAt la₀ refr =>
      cases ht : lruOf t with
      | none =>
        simp only [lruOf, ht, Option.some.injEq, Prod.mk.injEq] at h
        refine ⟨⟨.complete v exp cAt la₀ refr, g₀⟩, ?_, by simp [isCompleteE]⟩
        rw [← h.1]
        exact List.mem_cons_self _ _
      | some q =>
        obtain ⟨k', la'⟩ := q
        simp only [lruOf, ht] at h
        split at h
        · simp only [Option.some.injEq, Prod.mk.injEq] at h
          obtain ⟨e, he, hc⟩ := ih (by rw [ht, h.1, h.2])
          exact ⟨e, List.mem_cons_of_mem _ he, hc⟩
        · simp only [Option.some.injEq, Prod.mk.injEq] at h
          refine ⟨⟨.complete v exp cAt la₀ refr, g₀⟩, ?_, by simp [isCompleteE]⟩
          rw [← h.1]
          exact List.mem_cons_self _ _

theorem lruOf_isSome_of_pos : ∀ {l : List (Nat × Entry)},
    0 < completeCount l → ∃ x, lruOf l = some x := by
  intro l
  induction l with
  | nil => intro h; simp [completeCount] at h
  | cons p t ih =>
    intro h
    obtain ⟨k₀, st₀, g₀⟩ := p
    cases st₀ with
    | pending cid =>
      have hnc : isCompleteE ⟨.pending cid, g₀⟩ = false := by simp [isCompleteE]
      have h' : 0 < completeCount t := by
        simpa [completeCount, List.countP_cons, hnc] using h
      simpa only [lruOf] using ih h'
    | complete v exp cAt la₀ refr =>
      cases ht : lruOf t with
      | none => exact ⟨(k₀, la₀), by simp only [lruOf, ht]⟩
      | some q =>
        obtain ⟨k', la'⟩ := q
        by_cases hle : la' ≤ la₀
        · exact ⟨(k', la'), by simp only [lruOf, ht]; rw [if_pos hle]⟩
        · exact ⟨(k₀, la₀), by simp only [lruOf, ht]; rw [if_neg hle]⟩

theorem evictOne_capacity (s : CacheState) : (evictOne s).capacity = s.capacity := by
  unfold evictOne
  split <;> rfl

theorem evictOne_comps (s : CacheState) : (evictOne s).comps = s.comps := by
  unfold evictOne
  split <;> rfl

theorem evictOne_results (s : CacheState) : (evictOne s).results = s.results := by
  unfold evictOne
  split <;> rfl

theorem evictOne_lookupCount (s : CacheState) :
    (evictOne s).lookupCount = s.lookupCount := by
  unfold evictOne
  split <;> rfl

theorem evictOne_nextId (s : CacheState) : (evictOne s).nextId = s.nextId := by
  unfold evictOne
  split <;> rfl

theorem evictOne_resOK {s : CacheState} (h : ∀ r ∈ s.resources, ResOK r) :
    ∀ r ∈ (evictOne s).resources, ResOK r := by
  unfold evictOne
  split
  · exact h
  · exact resOK_markUnreachable h

theorem evictOne_count_lt {s : CacheState} (h : 0 < completeCount s.entries) :
    completeCount (evictOne s).entries < completeCount s.entries := by
  obtain ⟨⟨k, la⟩, hlru⟩ := lruOf_isSome_of_pos h
  obtain ⟨e, hmem, hc⟩ := lruOf_mem hlru
  simp only [evictOne, hlru]
  have hle := countP_eraseKey_add_one_le (p := fun p => isCompleteE p.2)
    (l := s.entries) hmem hc
  simp only [completeCount]
  omega

theorem evictOne_lookup (s : CacheState) (k : Nat) :
    lookupKey k (evictOne s).entries = lookupKey k s.entries ∨
    lookupKey k (evictOne s).entries = none := by
  unfold evictOne
  cases hlru : lruOf s.entries with
  | none => left; rfl
  | some q =>
    obtain ⟨j, la⟩ := q
    by_cases hjk : j = k
    · right
      subst hjk
      exact lookupKey_eraseKey_self j s.entries
    · left
      exact lookupKey_eraseKey_ne hjk s.entries

theorem evictLoop_capacity (fuel : Nat) : ∀ s : CacheState,
    (evictLoop fuel s).capacity = s.capacity := by
  induction fuel with
  | zero => intro s; rfl
  | succ n ih =>
    intro s
    unfold evictLoop
    split
    · rw [ih, evictOne_capacity]
    · rfl

theorem evictLoop_comps (fuel : Nat) : ∀ s : CacheState,
    (evictLoop fuel s).comps = s.comps := by
  induction fuel with
  | zero => intro s; rfl
  | succ n ih =>
    intro s
    unfold evictLoop
    split
    · rw [ih, evictOne_comps]
    · rfl

theorem evictLoop_results (fuel : Nat) : ∀ s : CacheState,
    (evictLoop fuel s).results = s.results := by
  induction fuel with
  | zero => intro s; rfl
  | succ n ih =>
    intro s
    unfold evictLoop
    split
    · rw [ih, evictOne_results]
    · rfl

theorem evictLoop_lookupCount (fuel : Nat) : ∀ s : CacheState,
    (evictLoop fuel s).lookupCount = s.lookupCount := by
  induction fuel with
  | zero => intro s; rfl
  | succ n ih =>
    intro s
    unfold evictLoop
    split
    · rw [ih, evictOne_lookupCount]
    · rfl

theorem evictLoop_nextId (fuel : Nat) : ∀ s : CacheState,
    (evictLoop fuel s).nextId = s.nextId := by
  induction fuel with
  | zero => intro s; rfl
  | succ n ih =>
    intro s
    unfold evictLoop
    split
    · rw [ih, evictOne_nextId]
    · rfl

theorem evictLoop_resOK (fuel : Nat) : ∀ s : CacheState,
    (∀ r ∈ s.resources, ResOK r) → ∀ r ∈ (evictLoop fuel s).resources, ResOK r := by
  induction fuel with
  | zero => intro s h; exact h
  | succ n ih =>
    intro s h
    unfold evictLoop
    split
    · exact ih (evictOne s) (evictOne_resOK h)
    · exact h

theorem evictLoop_count_le (fuel : Nat) : ∀ s : CacheState,
    completeCount s.entries ≤ s.capacity + fuel →
    completeCount (evictLoop fuel s).entries ≤ s.capacity := by
  induction fuel with
  | zero => intro s h; simpa [evictLoop] using h
  | succ n ih =>
    intro s h
    unfold evictLoop
    split
    · rename_i hlt
      have hpos : 0 < completeCount s.entries := by omega
      have hdec := evictOne_count_lt hpos
      have hcap := evictOne_capacity s
      have := ih (evictOne s) (by rw [hcap]; omega)
      rw [hcap] at this
      exact this
    · rename_i hge
      omega

theorem evictLoop_eq_self (fuel : Nat) (s : CacheState)
    (h : completeCount s.entries ≤ s.capacity) : evictLoop fuel s = s := by
  cases fuel with
  | zero => rfl
  | succ n =>
    unfold evictLoop
    rw [if_neg (by omega)]

theorem evictLoop_lookup (fuel : Nat) : ∀ (s : CacheState) (k : Nat),
    lookupKey k (evictLoop fuel s).entries = lookupKey k s.entries ∨
    lookupKey k (evictLoop fuel s).entries = none := by
  induction fuel with
  | zero => intro s k; left; rfl
  | succ n ih =>
    intro s k
    unfold evictLoop
    split
    · rcases ih (evictOne s) k with h | h
      · rcases evictOne_lookup s k with h' | h'
        · left; rw [h, h']
        · right; rw [h, h']
      · right; exact h
    · left; rfl

end Cache

namespace Cache

theorem getStep_capacity (c k : Nat) (now : Int) (s : CacheState) :
    (getStep c k now s).capacity = s.capacity := by
  unfold getStep
  repeat' split
  all_goals rfl

theorem getOptionStep_capacity (c k : Nat) (now : Int) (s : CacheState) :
    (getOptionStep c k now s).capacity = s.capacity := by
  unfold getOptionStep
  repeat' split
  all_goals rfl

theorem refreshStep_capacity (c k : Nat) (s : CacheState) :
    (refreshStep c k s).capacity = s.capacity := by
  unfold refreshStep
  repeat' split
  all_goals rfl

theorem completeSuccessStep_capacity (cid v : Nat) (d now : Int) (s : CacheState) :
    (completeSuccessStep cid v d now s).capacity = s.capacity := by
  unfold completeSuccessStep
  repeat' split
  all_goals first | rfl | rw [evictLoop_capacity]

theorem completeFailStep_capacity (cid error : Nat) (s : CacheState) :
    (completeFailStep cid error s).capacity = s.capacity := by
  unfold completeFailStep
  repeat' split
  all_goals rfl

theorem releaseStep_capacity (k g : Nat) (s : CacheState) :
    (releaseStep k g s).capacity = s.capacity := rfl

theorem invalidateStep_capacity (k : Nat) (s : CacheState) :
    (invalidateStep k s).capacity = s.capacity := by
  unfold invalidateStep
  repeat' split
  all_goals rfl

theorem invalidateAllStep_capacity (s : CacheState) :
    (invalidateAllStep s).capacity = s.capacity := by
  unfold invalidateAllStep
  generalize s.entries.map Prod.fst = ks
  induction ks generalizing s with
  | nil => rfl
  | cons k t ih =>
    simp only [List.foldl_cons]
    rw [ih (invalidateStep k s), invalidateStep_capacity]

theorem step_capacity (a : Act) (s : CacheState) :
    (step a s).capacity = s.capacity := by
  cases a with
  | get c k now => exact getStep_capacity c k now s
  | getOption c k now => exact getOptionStep_capacity c k now s
  | refresh c k => exact refreshStep_capacity c k s
  | completeSuccess cid v d now => exact completeSuccessStep_capacity cid v d now s
  | completeFail cid error => exact completeFailStep_capacity cid error s
  | release k g => exact releaseStep_capacity k g s
  | invalidate k => exact invalidateStep_capacity k s
  | invalidateAll => exact invalidateAllStep_capacity s

theorem completeCount_setKey_pending (k cid g : Nat) (l : List (Nat × Entry)) :
    completeCount (setKey k ⟨.pending cid, g⟩ l) = completeCount (eraseKey k l) := by
  simp [setKey, completeCount, List.countP_cons, isCompleteE]

theorem completeCount_setKey_complete (k : Nat) (e : Entry)
    (hc : isCompleteE e = true) (l : List (Nat × Entry)) :
    completeCount (setKey k e l) = completeCount (eraseKey k l) + 1 := by
  simp [setKey, completeCount, List.countP_cons, hc]

theorem getStep_count (c k : Nat) (now : Int) {s : CacheState}
    (h : completeCount s.entries ≤ s.capacity) :
    completeCount (getStep c k now s).entries ≤ s.capacity := by
  unfold getStep
  split
  · rename_i e hE
    split
    · exact h
    · rename_i v exp cAt la refr hSt
      split
      · have hmem := lookupKey_some_mem hE
        have hc : isCompleteE e = true := by simp [isCompleteE, hSt]
        have hle := countP_eraseKey_add_one_le
          (p := fun p => isCompleteE p.2) (l := s.entries) hmem hc
        rw [completeCount_setKey_complete k ⟨.complete v exp cAt now refr, e.generation⟩
          (by simp [isCompleteE]) s.entries]
        simp only [completeCount] at h ⊢
        omega
      · split
        · exact h
        · rw [completeCount_setKey_pending]
          exact le_trans (countP_eraseKey_le (fun p => isCompleteE p.2) k s.entries) h
  · rw [completeCount_setKey_pending]
    exact le_trans (countP_eraseKey_le (fun p => isCompleteE p.2) k s.entries) h

theorem getOptionStep_count (c k : Nat) (now : Int) {s : CacheState}
    (h : completeCount s.entries ≤ s.capacity) :
    completeCount (getOptionStep c k now s).entries ≤ s.capacity := by
  unfold getOptionStep
  split
  · rename_i e hE
    split
    · exact h
    · rename_i v exp cAt la refr hSt
      split
      · have hmem := lookupKey_some_mem hE
        have hc : isCompleteE e = true := by simp [isCompleteE, hSt]
        have hle := countP_eraseKey_add_one_le
          (p := fun p => isCompleteE p.2) (l := s.entries) hmem hc
        rw [completeCount_setKey_complete k ⟨.complete v exp cAt now refr, e.generation⟩
          (by simp [isCompleteE]) s.entries]
        simp only [completeCount] at h ⊢
        omega
      · exact h
  · exact h

theorem refreshStep_count (c k : Nat) {s : CacheState}
    (h : completeCount s.entries ≤ s.capacity) :
    completeCount (refreshStep c k s).entries ≤ s.capacity := by
  unfold refreshStep
  split
  · rename_i e hE
    split
    · exact h
    · rename_i v exp cAt la refr hSt
      split
      · exact h
      · have hmem := lookupKey_some_mem hE
        have hc : isCompleteE e = true := by simp [isCompleteE, hSt]
        have hle := countP_eraseKey_add_one_le
          (p := fun p => isCompleteE p.2) (l := s.entries) hmem hc
        rw [completeCount_setKey_complete k ⟨.complete v exp cAt la (some s.nextId), e.generation⟩
          (by simp [isCompleteE]) s.entries]
        simp only [completeCount] at h ⊢
        omega
  · rw [completeCount_setKey_pending]
    exact le_trans (countP_eraseKey_le (fun p => isCompleteE p.2) k s.entries) h

theorem completeSuccessStep_count (cid v : Nat) (d now : Int) {s : CacheState}
    (h : completeCount s.entries ≤ s.capacity) :
    completeCount (completeSuccessStep cid v d now s).entries ≤ s.capacity := by
  unfold completeSuccessStep
  split
  · exact h
  · rename_i comp hC
    split
    · rename_i e hE
      split
      · rename_i pcid hSt
        split
        · have hmem := lookupKey_some_mem hE
          have hnc : isCompleteE e = false := by simp [isCompleteE, hSt]
          have hlt := countP_lt_length
            (p := fun p => isCompleteE p.2) (l := s.entries) hmem hnc
          have hle := countP_eraseKey_le (fun p => isCompleteE p.2) comp.key s.entries
          refine evictLoop_count_le s.entries.length _ ?_
          rw [completeCount_setKey_complete comp.key
            ⟨.complete v (now + d) now now none, comp.generation⟩
            (by simp [isCompleteE]) s.entries]
          simp only [completeCount] at h ⊢
          omega
        · exact h
      · rename_i v₀ exp₀ cAt₀ la₀ refr₀ hSt
        split
        · have hmem := lookupKey_some_mem hE
          have hc : isCompleteE e = true := by simp [isCompleteE, hSt]
          have hone := countP_eraseKey_add_one_le
            (p := fun p => isCompleteE p.2) (l := s.entries) hmem hc
          refine evictLoop_count_le s.entries.length _ ?_
          rw [completeCount_setKey_complete comp.key
            ⟨.complete v (now + d) now now none, comp.generation⟩
            (by simp [isCompleteE]) s.entries]
          simp only [completeCount] at h ⊢
          omega
        · exact h
    · exact h

theorem completeFailStep_count (cid error : Nat) {s : CacheState}
    (h : completeCount s.entries ≤ s.capacity) :
    completeCount (completeFailStep cid error s).entries ≤ s.capacity := by
  unfold completeFailStep
  split
  · exact h
  · rename_i comp hC
    split
    · rename_i e hE
      split
      · split
        · exact le_trans
            (countP_eraseKey_le (fun p => isCompleteE p.2) comp.key s.entries) h
        · exact h
      · rename_i v₀ exp₀ cAt₀ la₀ refr₀ hSt
        split
        · have hmem := lookupKey_some_mem hE
          have hc : isCompleteE e = true := by simp [isCompleteE, hSt]
          have hone := countP_eraseKey_add_one_le
            (p := fun p => isCompleteE p.2) (l := s.entries) hmem hc
          rw [completeCount_setKey_complete comp.key
            ⟨.complete v₀ exp₀ cAt₀ la₀ none, e.generation⟩
            (by simp [isCompleteE]) s.entries]
          simp only [completeCount] at h ⊢
          omega
        · exact h
    · exact h

theorem invalidateStep_count (k : Nat) {s : CacheState}
    (h : completeCount s.entries ≤ s.capacity) :
    completeCount (invalidateStep k s).entries ≤ s.capacity := by
  unfold invalidateStep
  have hle := countP_eraseKey_le (fun p => isCompleteE p.2) k s.entries
  repeat' split
  all_goals first | exact h | exact le_trans hle h

theorem invalidateAllStep_count {s : CacheState}
    (h : completeCount s.entries ≤ s.capacity) :
    completeCount (invalidateAllStep s).entries ≤ s.capacity := by
  unfold invalidateAllStep
  generalize s.entries.map Prod.fst = ks
  induction ks generalizing s with
  | nil => exact h
  | cons k t ih =>
    simp only [List.foldl_cons]
    have h1 : completeCount (invalidateStep k s).entries ≤ (invalidateStep k s).capacity := by
      rw [invalidateStep_capacity]
      exact invalidateStep_count k h
    have := ih (s := invalidateStep k s) h1
    rw [invalidateStep_capacity] at this
    exact this

theorem step_count (a : Act) {s : CacheState}
    (h : completeCount s.entries ≤ s.capacity) :
    completeCount (step a s).entries ≤ s.capacity := by
  cases a with
  | get c k now => exact getStep_count c k now h
  | getOption c k now => exact getOptionStep_count c k now h
  | refresh c k => exact refreshStep_count c k h
  | completeSuccess cid v d now => exact completeSuccessStep_count cid v d now h
  | completeFail cid error => exact completeFailStep_count cid error h
  | release k g => exact h
  | invalidate k => exact invalidateStep_count k h
  | invalidateAll => exact invalidateAllStep_count h

end Cache

namespace Cache

theorem getStep_resOK (c k : Nat) (now : Int) {s : CacheState}
    (h : ∀ r ∈ s.resources, ResOK r) :
    ∀ r ∈ (getStep c k now s).resources, ResOK r := by
  unfold getStep
  split
  · split
    · exact h
    · split
      · exact resOK_incRef h
      · split
        · exact h
        · exact resOK_markUnreachable h
  · exact h

theorem getOptionStep_resOK (c k : Nat) (now : Int) {s : CacheState}
    (h : ∀ r ∈ s.resources, ResOK r) :
    ∀ r ∈ (getOptionStep c k now s).resources, ResOK r := by
  unfold getOptionStep
  split
  · split
    · exact h
    · split
      · exact resOK_incRef h
      · exact h
  · exact h

theorem refreshStep_resOK (c k : Nat) {s : CacheState}
    (h : ∀ r ∈ s.resources, ResOK r) :
    ∀ r ∈ (refreshStep c k s).resources, ResOK r := by
  unfold refreshStep
  repeat' split
  all_goals exact h

theorem completeSuccessStep_resOK (cid v : Nat) (d now : Int) {s : CacheState}
    (h : ∀ r ∈ s.resources, ResOK r) :
    ∀ r ∈ (completeSuccessStep cid v d now s).resources, ResOK r := by
  unfold completeSuccessStep
  split
  · exact h
  · rename_i comp hC
    split
    · split
      · split
        · refine evictLoop_resOK _ _ ?_
          intro r hr
          rcases List.mem_cons.mp hr with rfl | hr'
          · exact resOK_fresh _ _ _
          · exact h r hr'
        · exact h
      · split
        · refine evictLoop_resOK _ _ ?_
          intro r hr
          rcases List.mem_cons.mp hr with rfl | hr'
          · exact resOK_fresh _ _ _
          · exact resOK_markUnreachable h r hr'
        · exact h
    · exact h

theorem completeFailStep_resOK (cid error : Nat) {s : CacheState}
    (h : ∀ r ∈ s.resources, ResOK r) :
    ∀ r ∈ (completeFailStep cid error s).resources, ResOK r := by
  unfold completeFailStep
  repeat' split
  all_goals exact h

theorem releaseStep_resOK (k g : Nat) {s : CacheState}
    (h : ∀ r ∈ s.resources, ResOK r) :
    ∀ r ∈ (releaseStep k g s).resources, ResOK r :=
  resOK_decRef h

theorem invalidateStep_resOK (k : Nat) {s : CacheState}
    (h : ∀ r ∈ s.resources, ResOK r) :
    ∀ r ∈ (invalidateStep k s).resources, ResOK r := by
  unfold invalidateStep
  repeat' split
  all_goals first | exact h | exact resOK_markUnreachable h

theorem invalidateAllStep_resOK {s : CacheState}
    (h : ∀ r ∈ s.resources, ResOK r) :
    ∀ r ∈ (invalidateAllStep s).resources, ResOK r := by
  unfold invalidateAllStep
  generalize s.entries.map Prod.fst = ks
  induction ks generalizing s with
  | nil => exact h
  | cons k t ih =>
    simp only [List.foldl_cons]
    exact ih (s := invalidateStep k s) (invalidateStep_resOK k h)

theorem step_resOK (a : Act) {s : CacheState}
    (h : ∀ r ∈ s.resources, ResOK r) :
    ∀ r ∈ (step a s).resources, ResOK r := by
  cases a with
  | get c k now => exact getStep_resOK c k now h
  | getOption c k now => exact getOptionStep_resOK c k now h
  | refresh c k => exact refreshStep_resOK c k h
  | completeSuccess cid v d now => exact completeSuccessStep_resOK cid v d now h
  | completeFail cid error => exact completeFailStep_resOK cid error h
  | release k g => exact releaseStep_resOK k g h
  | invalidate k => exact invalidateStep_resOK k h
  | invalidateAll => exact invalidateAllStep_resOK h

theorem optOK_successOutcome (c v g : Nat) (m : Mode) :
    OptOK (c, m, successOutcome v g m) := by
  cases m with
  | viaGet => exact fun _ => Or.inl ⟨v, g, rfl⟩
  | viaGetOption => exact fun _ => Or.inl ⟨v, g, rfl⟩
  | viaRefresh => exact fun hm => nomatch hm

theorem optOK_failureOutcome (c error : Nat) (m : Mode) :
    OptOK (c, m, failureOutcome error m) := by
  cases m with
  | viaGet => exact fun hm => nomatch hm
  | viaGetOption => exact fun _ => Or.inr rfl
  | viaRefresh => exact fun hm => nomatch hm

theorem optOK_cancelOutcome (c : Nat) (m : Mode) :
    OptOK (c, m, cancelOutcome m) := by
  cases m with
  | viaGet => exact fun hm => nomatch hm
  | viaGetOption => exact fun _ => Or.inr rfl
  | viaRefresh => exact fun hm => nomatch hm

theorem getStep_optOK (c k : Nat) (now : Int) {s : CacheState}
    (h : ∀ x ∈ s.results, OptOK x) :
    ∀ x ∈ (getStep c k now s).results, OptOK x := by
  unfold getStep
  split
  · split
    · exact h
    · split
      · intro x hx
        rcases List.mem_cons.mp hx with rfl | hx'
        · exact fun hm => nomatch hm
        · exact h x hx'
      · split
        · exact h
        · exact h
  · exact h

theorem getOptionStep_optOK (c k : Nat) (now : Int) {s : CacheState}
    (h : ∀ x ∈ s.results, OptOK x) :
    ∀ x ∈ (getOptionStep c k now s).results, OptOK x := by
  unfold getOptionStep
  split
  · split
    · exact h
    · split
      · intro x hx
        rcases List.mem_cons.mp hx with rfl | hx'
        · exact fun _ => Or.inl ⟨_, _, rfl⟩
        · exact h x hx'
      · intro x hx
        rcases List.mem_cons.mp hx with rfl | hx'
        · exact fun _ => Or.inr rfl
        · exact h x hx'
  · intro x hx
    rcases List.mem_cons.mp hx with rfl | hx'
    · exact fun _ => Or.inr rfl
    · exact h x hx'

theorem refreshStep_optOK (c k : Nat) {s : CacheState}
    (h : ∀ x ∈ s.results, OptOK x) :
    ∀ x ∈ (refreshStep c k s).results, OptOK x := by
  unfold refreshStep
  repeat' split
  all_goals exact h

theorem completeSuccessStep_optOK (cid v : Nat) (d now : Int) {s : CacheState}
    (h : ∀ x ∈ s.results, OptOK x) :
    ∀ x ∈ (completeSuccessStep cid v d now s).results, OptOK x := by
  unfold completeSuccessStep
  split
  · exact h
  · rename_i comp hC
    split
    · split
      · split
        · intro x hx
          rw [evictLoop_results] at hx
          rcases List.mem_append.mp hx with hx' | hx'
          · rcases List.mem_map.mp hx' with ⟨w, hw, rfl⟩
            exact optOK_successOutcome _ _ _ _
          · exact h x hx'
        · exact h
      · split
        · intro x hx
          rw [evictLoop_results] at hx
          rcases List.mem_append.mp hx with hx' | hx'
          · rcases List.mem_map.mp hx' with ⟨w, hw, rfl⟩
            exact optOK_successOutcome _ _ _ _
          · exact h x hx'
        · exact h
    · exact h

theorem completeFailStep_optOK (cid error : Nat) {s : CacheState}
    (h : ∀ x ∈ s.results, OptOK x) :
    ∀ x ∈ (completeFailStep cid error s).results, OptOK x := by
  unfold completeFailStep
  split
  · exact h
  · rename_i comp hC
    split
    · split
      · split
        · intro x hx
          rcases List.mem_append.mp hx with hx' | hx'
          · rcases List.mem_map.mp hx' with ⟨w, hw, rfl⟩
            exact optOK_failureOutcome _ _ _
          · exact h x hx'
        · exact h
      · split
        · intro x hx
          rcases List.mem_append.mp hx with hx' | hx'
          · rcases List.mem_map.mp hx' with ⟨w, hw, rfl⟩
            exact optOK_failureOutcome _ _ _
          · exact h x hx'
        · exact h
    · exact h

theorem invalidateStep_optOK (k : Nat) {s : CacheState}
    (h : ∀ x ∈ s.results, OptOK x) :
    ∀ x ∈ (invalidateStep k s).results, OptOK x := by
  unfold invalidateStep
  repeat' split
  all_goals first
    | exact h
    | (intro x hx
       rcases List.mem_append.mp hx with hx' | hx'
       · rcases List.mem_map.mp hx' with ⟨w, hw, rfl⟩
         exact optOK_cancelOutcome _ _
       · exact h x hx')

theorem invalidateAllStep_optOK {s : CacheState}
    (h : ∀ x ∈ s.results, OptOK x) :
    ∀ x ∈ (invalidateAllStep s).results, OptOK x := by
  unfold invalidateAllStep
  generalize s.entries.map Prod.fst = ks
  induction ks generalizing s with
  | nil => exact h
  | cons k t ih =>
    simp only [List.foldl_cons]
    exact ih (s := invalidateStep k s) (invalidateStep_optOK k h)

theorem step_optOK (a : Act) {s : CacheState}
    (h : ∀ x ∈ s.results, OptOK x) :
    ∀ x ∈ (step a s).results, OptOK x := by
  cases a with
  | get c k now => exact getStep_optOK c k now h
  | getOption c k now => exact getOptionStep_optOK c k now h
  | refresh c k => exact refreshStep_optOK c k h
  | completeSuccess cid v d now => exact completeSuccessStep_optOK cid v d now h
  | completeFail cid error => exact completeFailStep_optOK cid error h
  | release k g => exact h
  | invalidate k => exact invalidateStep_optOK k h
  | invalidateAll => exact invalidateAllStep_optOK h

theorem runActs_pres {P : CacheState → Prop}
    (hstep : ∀ (a : Act) (s : CacheState), P s → P (step a s)) :
    ∀ (l : List Act) (s : CacheState), P s → P (runActs l s) := by
  intro l
  induction l with
  | nil => intro s h; exact h
  | cons a t ih =>
    intro s h
    exact ih (step a s) (hstep a s h)

theorem runActs_capacity : ∀ (l : List Act) (s : CacheState),
    (runActs l s).capacity = s.capacity := by
  intro l
  induction l with
  | nil => intro s; rfl
  | cons a t ih =>
    intro s
    exact (ih (step a s)).trans (step_capacity a s)

theorem runActs_resOK (cap : Nat) (l : List Act) :
    ∀ r ∈ (runActs l (initCache cap)).resources, ResOK r := by
  refine runActs_pres (P := fun s => ∀ r ∈ s.resources, ResOK r)
    (fun a s h => step_resOK a h) l (initCache cap) ?_
  intro r hr
  simp [initCache] at hr

theorem runActs_count (cap : Nat) (l : List Act) :
    completeCount (runActs l (initCache cap)).entries ≤ cap := by
  have h := runActs_pres (P := fun s => completeCount s.entries ≤ s.capacity)
    (fun a s hs => by
      show completeCount (step a s).entries ≤ (step a s).capacity
      rw [step_capacity a s]
      exact step_count a hs)
    l (initCache cap) (by simp [initCache, completeCount])
  exact le_of_le_of_eq h (runActs_capacity l (initCache cap))

theorem runActs_optOK (cap : Nat) (l : List Act) :
    ∀ x ∈ (runActs l (initCache cap)).results, OptOK x := by
  refine runActs_pres (P := fun s => ∀ x ∈ s.results, OptOK x)
    (fun a s h => step_optOK a h) l (initCache cap) ?_
  intro x hx
  simp [initCache] at hx

end Cache

namespace Cache

theorem getStep_absent_eq (c k : Nat) (now : Int) {s : CacheState}
    (hE : lookupKey k s.entries = none) :
    getStep c k now s =
      { s with misses := s.misses + 1,
               entries := setKey k ⟨.pending s.nextId, s.nextId⟩ s.entries,
               comps := (s.nextId, ⟨k, s.nextId, [⟨c, .viaGet⟩]⟩) :: s.comps,
               lookupCount := s.lookupCount + 1,
               nextId := s.nextId + 1 } := by
  unfold getStep
  rw [hE]

theorem getStep_pending_eq (c k : Nat) (now : Int) {s : CacheState} {cid g : Nat}
    (hE : lookupKey k s.entries = some ⟨.pending cid, g⟩) :
    getStep c k now s =
      { s with hits := s.hits + 1,
               comps := addWaiter cid ⟨c, .viaGet⟩ s.comps } := by
  unfold getStep
  rw [hE]

theorem getStep_hit_eq (c k : Nat) (now : Int) {s : CacheState} {v : Nat}
    {exp cAt la : Int} {refr : Option Nat} {g : Nat}
    (hE : lookupKey k s.entries = some ⟨.complete v exp cAt la refr, g⟩)
    (hlt : now < exp) :
    getStep c k now s =
      { s with hits := s.hits + 1,
               entries := setKey k ⟨.complete v exp cAt now refr, g⟩ s.entries,
               resources := incRef k g s.resources,
               results := (c, .viaGet, .ok v g) :: s.results } := by
  unfold getStep
  rw [hE]
  dsimp only
  rw [if_pos hlt]

theorem getStep_expired_miss_eq (c k : Nat) (now : Int) {s : CacheState} {v : Nat}
    {exp cAt la : Int} {g : Nat}
    (hE : lookupKey k s.entries = some ⟨.complete v exp cAt la none, g⟩)
    (hge : ¬ now < exp) :
    getStep c k now s =
      { s with misses := s.misses + 1,
               entries := setKey k ⟨.pending s.nextId, s.nextId⟩ s.entries,
               resources := markUnreachable k g s.resources,
               comps := (s.nextId, ⟨k, s.nextId, [⟨c, .viaGet⟩]⟩) :: s.comps,
               lookupCount := s.lookupCount + 1,
               nextId := s.nextId + 1 } := by
  unfold getStep
  rw [hE]
  dsimp only
  rw [if_neg hge]

theorem getStep_expired_refresh_eq (c k : Nat) (now : Int) {s : CacheState}
    {v : Nat} {exp cAt la : Int} {rcid g : Nat}
    (hE : lookupKey k s.entries = some ⟨.complete v exp cAt la (some rcid), g⟩)
    (hge : ¬ now < exp) :
    getStep c k now s =
      { s with misses := s.misses + 1,
               comps := addWaiter rcid ⟨c, .viaGet⟩ s.comps } := by
  unfold getStep
  rw [hE]
  dsimp only
  rw [if_neg hge]

theorem getOptionStep_absent_eq (c k : Nat) (now : Int) {s : CacheState}
    (hE : lookupKey k s.entries = none) :
    getOptionStep c k now s =
      { s with misses := s.misses + 1,
               results := (c, .viaGetOption, .emptyResult) :: s.results } := by
  unfold getOptionStep
  rw [hE]

theorem getOptionStep_pending_eq (c k : Nat) (now : Int) {s : CacheState}
    {cid g : Nat}
    (hE : lookupKey k s.entries = some ⟨.pending cid, g⟩) :
    getOptionStep c k now s =
      { s with hits := s.hits + 1,
               comps := addWaiter cid ⟨c, .viaGetOption⟩ s.comps } := by
  unfold getOptionStep
  rw [hE]

theorem getOptionStep_hit_eq (c k : Nat) (now : Int) {s : CacheState} {v : Nat}
    {exp cAt la : Int} {refr : Option Nat} {g : Nat}
    (hE : lookupKey k s.entries = some ⟨.complete v exp cAt la refr, g⟩)
    (hlt : now < exp) :
    getOptionStep c k now s =
      { s with hits := s.hits + 1,
               entries := setKey k ⟨.complete v exp cAt now refr, g⟩ s.entries,
               resources := incRef k g s.resources,
               results := (c, .viaGetOption, .ok v g) :: s.results } := by
  unfold getOptionStep
  rw [hE]
  dsimp only
  rw [if_pos hlt]

theorem getOptionStep_expired_eq (c k : Nat) (now : Int) {s : CacheState} {v : Nat}
    {exp cAt la : Int} {refr : Option Nat} {g : Nat}
    (hE : lookupKey k s.entries = some ⟨.complete v exp cAt la refr, g⟩)
    (hge : ¬ now < exp) :
    getOptionStep c k now s =
      { s with misses := s.misses + 1,
               results := (c, .viaGetOption, .emptyResult) :: s.results } := by
  unfold getOptionStep
  rw [hE]
  dsimp only
  rw [if_neg hge]

theorem refreshStep_complete_eq (c k : Nat) {s : CacheState} {v : Nat}
    {exp cAt la : Int} {g : Nat}
    (hE : lookupKey k s.entries = some ⟨.complete v exp cAt la none, g⟩) :
    refreshStep c k s =
      { s with entries := setKey k
                 ⟨.complete v exp cAt la (some s.nextId), g⟩ s.entries,
               comps := (s.nextId, ⟨k, s.nextId, [⟨c, .viaRefresh⟩]⟩) :: s.comps,
               lookupCount := s.lookupCount + 1,
               nextId := s.nextId + 1 } := by
  unfold refreshStep
  rw [hE]

theorem completeSuccessStep_pending_eq {cid : Nat} (v : Nat) (d t' : Int)
    {s : CacheState} {comp : Comp} {gE : Nat}
    (hC : lookupKey cid s.comps = some comp)
    (hE : lookupKey comp.key s.entries = some ⟨.pending cid, gE⟩) :
    completeSuccessStep cid v d t' s = evictLoop s.entries.length
      { s with
        entries := setKey comp.key
          ⟨.complete v (t' + d) t' t' none, comp.generation⟩ s.entries,
        comps := eraseKey cid s.comps,
        resources := ⟨comp.key, comp.generation,
          (comp.waiters.filter (fun w => w.mode ≠ .viaRefresh)).length,
          true, 0⟩ :: s.resources,
        results := comp.waiters.map
          (fun w => (w.caller, w.mode, successOutcome v comp.generation w.mode))
          ++ s.results } := by
  unfold completeSuccessStep
  rw [hC]
  dsimp only
  rw [hE]
  dsimp only
  rw [if_pos rfl]

theorem completeSuccessStep_refresh_eq {cid : Nat} (v : Nat) (d t' : Int)
    {s : CacheState} {comp : Comp} {v₀ : Nat} {exp₀ cAt₀ la₀ : Int} {gE : Nat}
    (hC : lookupKey cid s.comps = some comp)
    (hE : lookupKey comp.key s.entries =
      some ⟨.complete v₀ exp₀ cAt₀ la₀ (some cid), gE⟩) :
    completeSuccessStep cid v d t' s = evictLoop s.entries.length
      { s with
        entries := setKey comp.key
          ⟨.complete v (t' + d) t' t' none, comp.generation⟩ s.entries,
        comps := eraseKey cid s.comps,
        resources := ⟨comp.key, comp.generation,
          (comp.waiters.filter (fun w => w.mode ≠ .viaRefresh)).length,
          true, 0⟩ :: markUnreachable comp.key gE s.resources,
        results := comp.waiters.map
          (fun w => (w.caller, w.mode, successOutcome v comp.generation w.mode))
          ++ s.results } := by
  unfold completeSuccessStep
  rw [hC]
  dsimp only
  rw [hE]
  dsimp only
  rw [if_pos rfl]

theorem completeFailStep_pending_eq {cid : Nat} (error : Nat)
    {s : CacheState} {comp : Comp} {gE : Nat}
    (hC : lookupKey cid s.comps = some comp)
    (hE : lookupKey comp.key s.entries = some ⟨.pending cid, gE⟩) :
    completeFailStep cid error s =
      { s with entries := eraseKey comp.key s.entries,
               comps := eraseKey cid s.comps,
               results := comp.waiters.map
                 (fun w => (w.caller, w.mode, failureOutcome error w.mode))
                 ++ s.results } := by
  unfold completeFailStep
  rw [hC]
  dsimp only
  rw [hE]
  dsimp only
  rw [if_pos rfl]

end Cache

namespace Cache

theorem getMany_pending (k : Nat) (cs : List (Nat × Int)) :
    ∀ (s : CacheState) (cid : Nat) (comp : Comp),
    lookupKey k s.entries = some ⟨.pending cid, cid⟩ →
    lookupKey cid s.comps = some comp →
    lookupKey k (getMany k cs s).entries = some ⟨.pending cid, cid⟩ ∧
    (∃ comp' : Comp, lookupKey cid (getMany k cs s).comps = some comp' ∧
      comp'.key = comp.key ∧ comp'.generation = comp.generation ∧
      (∀ w ∈ comp.waiters, w ∈ comp'.waiters) ∧
      (∀ ci ∈ cs, (⟨ci.1, .viaGet⟩ : Waiter) ∈ comp'.waiters)) ∧
    (getMany k cs s).lookupCount = s.lookupCount ∧
    (getMany k cs s).entries = s.entries ∧
    (getMany k cs s).resources = s.resources ∧
    (getMany k cs s).results = s.results ∧
    (getMany k cs s).nextId = s.nextId := by
  induction cs with
  | nil =>
    intro s cid comp hE hC
    exact ⟨hE, ⟨comp, hC, rfl, rfl, fun w hw => hw, by simp⟩, rfl, rfl, rfl, rfl, rfl⟩
  | cons ci rest ih =>
    intro s cid comp hE hC
    have hstep := getStep_pending_eq ci.1 k ci.2 hE
    have h1 : lookupKey k (getStep ci.1 k ci.2 s).entries =
        some ⟨.pending cid, cid⟩ := by
      rw [hstep]
      exact hE
    have h2 : lookupKey cid (getStep ci.1 k ci.2 s).comps =
        some { comp with waiters := ⟨ci.1, .viaGet⟩ :: comp.waiters } := by
      rw [hstep]
      exact addWaiter_lookup_self hC
    obtain ⟨g1, ⟨comp', g2, g3, g4, g5, g6⟩, g7, g8, g9, g10, g11⟩ :=
      ih (getStep ci.1 k ci.2 s) cid _ h1 h2
    have hcons : getMany k (ci :: rest) s = getMany k rest (getStep ci.1 k ci.2 s) := rfl
    refine ⟨g1, ⟨comp', g2, by rw [g3], by rw [g4], ?_, ?_⟩, ?_, ?_, ?_, ?_, ?_⟩
    · intro w hw
      exact g5 w (List.mem_cons_of_mem _ hw)
    · intro ci' hci'
      rcases List.mem_cons.mp hci' with rfl | hci''
      · exact g5 _ (List.mem_cons_self _ _)
      · exact g6 ci' hci''
    · rw [hcons, g7, hstep]
    · rw [hcons, g8, hstep]
    · rw [hcons, g9, hstep]
    · rw [hcons, g10, hstep]
    · rw [hcons, g11, hstep]

end Cache

namespace Cache

theorem eraseKey_idem {α : Type} (k : Nat) (l : List (Nat × α)) :
    eraseKey k (eraseKey k l) = eraseKey k l := by
  simp [eraseKey, List.filter_filter]

theorem eraseKey_setKey {α : Type} (k : Nat) (v : α) (l : List (Nat × α)) :
    eraseKey k (setKey k v l) = eraseKey k l := by
  simp [setKey, eraseKey, List.filter_filter]

/-- C1: for every key absent from the cache, when several callers (a
nonempty list, modelling N ≥ 2 concurrent callers whose atomic `get`
decision steps interleave with no completion in between) invoke `get` on
that key, the lookup function is invoked exactly once: the first caller
installs the `Pending` entry, every caller is registered as a waiter of
the single in-flight computation, and when that computation resolves every
caller is resumed with the produced value. -/
theorem get_concurrent_callers_single_lookup
    (s : CacheState) (k c₀ : Nat) (t₀ : Int) (cs : List (Nat × Int))
    (hE : lookupKey k s.entries = none) :
    (getMany k ((c₀, t₀) :: cs) s).lookupCount = s.lookupCount + 1 ∧
    lookupKey k (getMany k ((c₀, t₀) :: cs) s).entries =
      some ⟨.pending s.nextId, s.nextId⟩ ∧
    (∃ comp' : Comp,
      lookupKey s.nextId (getMany k ((c₀, t₀) :: cs) s).comps = some comp' ∧
      comp'.key = k ∧ comp'.generation = s.nextId ∧
      ∀ ci ∈ (c₀, t₀) :: cs, (⟨ci.1, .viaGet⟩ : Waiter) ∈ comp'.waiters) ∧
    (∀ (v : Nat) (d t' : Int) (ci : Nat × Int), ci ∈ (c₀, t₀) :: cs →
      (ci.1, Mode.viaGet, Outcome.ok v s.nextId) ∈
        (completeSuccessStep s.nextId v d t'
          (getMany k ((c₀, t₀) :: cs) s)).results) := by
  have hstep := getStep_absent_eq c₀ k t₀ hE
  have h1 : lookupKey k (getStep c₀ k t₀ s).entries =
      some ⟨.pending s.nextId, s.nextId⟩ := by
    rw [hstep]
    exact lookupKey_setKey_self k _ s.entries
  have h2 : lookupKey s.nextId (getStep c₀ k t₀ s).comps =
      some ⟨k, s.nextId, [⟨c₀, .viaGet⟩]⟩ := by
    rw [hstep]
    simp [lookupKey]
  obtain ⟨g1, ⟨comp', g2, g3, g4, g5, g6⟩, g7, g8, g9, g10, g11⟩ :=
    getMany_pending k cs (getStep c₀ k t₀ s) s.nextId _ h1 h2
  have hcons : getMany k ((c₀, t₀) :: cs) s = getMany k cs (getStep c₀ k t₀ s) := rfl
  have hwmem : ∀ ci ∈ (c₀, t₀) :: cs, (⟨ci.1, .viaGet⟩ : Waiter) ∈ comp'.waiters := by
    intro ci hci
    rcases List.mem_cons.mp hci with rfl | hci'
    · exact g5 _ (List.mem_cons_self _ _)
    · exact g6 ci hci'
  have hkey : comp'.key = k := by rw [g3]
  have hgen : comp'.generation = s.nextId := by rw [g4]
  refine ⟨?_, ?_, ⟨comp', by rw [hcons]; exact g2, hkey, hgen, hwmem⟩, ?_⟩
  · rw [hcons, g7, hstep]
  · rw [hcons]
    exact g1
  · intro v d t' ci hci
    have hC2 : lookupKey s.nextId (getMany k ((c₀, t₀) :: cs) s).comps =
        some comp' := by
      rw [hcons]
      exact g2
    have hE2 : lookupKey comp'.key (getMany k ((c₀, t₀) :: cs) s).entries =
        some ⟨.pending s.nextId, s.nextId⟩ := by
      rw [hkey, hcons]
      exact g1
    have heq := completeSuccessStep_pending_eq v d t' hC2 hE2
    rw [heq, evictLoop_results]
    refine List.mem_append.mpr (Or.inl ?_)
    refine List.mem_map.mpr ⟨⟨ci.1, .viaGet⟩, hwmem ci hci, ?_⟩
    simp [successOutcome, hgen]

/-- Witness for C1: two callers racing on the absent key 1 of a fresh
cache trigger one lookup invocation, share the pending computation, and
both receive the value 42 when it completes. -/
theorem get_concurrent_callers_single_lookup_witness :
    (getMany 1 ((0, 0) :: [(7, 0)]) (initCache 10)).lookupCount =
      (initCache 10).lookupCount + 1 ∧
    lookupKey 1 (getMany 1 ((0, 0) :: [(7, 0)]) (initCache 10)).entries =
      some ⟨.pending (initCache 10).nextId, (initCache 10).nextId⟩ ∧
    (∃ comp' : Comp,
      lookupKey (initCache 10).nextId
        (getMany 1 ((0, 0) :: [(7, 0)]) (initCache 10)).comps = some comp' ∧
      comp'.key = 1 ∧ comp'.generation = (initCache 10).nextId ∧
      ∀ ci ∈ ((0, 0) : Nat × Int) :: [(7, 0)],
        (⟨ci.1, .viaGet⟩ : Waiter) ∈ comp'.waiters) ∧
    (∀ (v : Nat) (d t' : Int) (ci : Nat × Int), ci ∈ ((0, 0) : Nat × Int) :: [(7, 0)] →
      (ci.1, Mode.viaGet, Outcome.ok v (initCache 10).nextId) ∈
        (completeSuccessStep (initCache 10).nextId v d t'
          (getMany 1 ((0, 0) :: [(7, 0)]) (initCache 10))).results) :=
  get_concurrent_callers_single_lookup (initCache 10) 1 0 0 [(7, 0)] (by decide)

/-- C5: when the single in-flight computation started by a population of
`get` callers on an absent key fails, the entry is removed from the ledger
entirely — the ledger is exactly as it was before the computation was
installed, and no resource record is created — and the error is
propagated verbatim to every caller that had joined the computation. -/
theorem lookup_failure_not_cached
    (s : CacheState) (k c₀ : Nat) (t₀ : Int) (cs : List (Nat × Int)) (error : Nat)
    (hE : lookupKey k s.entries = none) :
    (completeFailStep s.nextId error (getMany k ((c₀, t₀) :: cs) s)).entries =
      s.entries ∧
    lookupKey k (completeFailStep s.nextId error
      (getMany k ((c₀, t₀) :: cs) s)).entries = none ∧
    (completeFailStep s.nextId error (getMany k ((c₀, t₀) :: cs) s)).resources =
      s.resources ∧
    (∀ ci ∈ (c₀, t₀) :: cs,
      (ci.1, Mode.viaGet, Outcome.err error) ∈
        (completeFailStep s.nextId error
          (getMany k ((c₀, t₀) :: cs) s)).results) := by
  have hstep := getStep_absent_eq c₀ k t₀ hE
  have h1 : lookupKey k (getStep c₀ k t₀ s).entries =
      some ⟨.pending s.nextId, s.nextId⟩ := by
    rw [hstep]
    exact lookupKey_setKey_self k _ s.entries
  have h2 : lookupKey s.nextId (getStep c₀ k t₀ s).comps =
      some ⟨k, s.nextId, [⟨c₀, .viaGet⟩]⟩ := by
    rw [hstep]
    simp [lookupKey]
  obtain ⟨g1, ⟨comp', g2, g3, g4, g5, g6⟩, g7, g8, g9, g10, g11⟩ :=
    getMany_pending k cs (getStep c₀ k t₀ s) s.nextId _ h1 h2
  have hcons : getMany k ((c₀, t₀) :: cs) s = getMany k cs (getStep c₀ k t₀ s) := rfl
  have hkey : comp'.key = k := by rw [g3]
  have hwmem : ∀ ci ∈ (c₀, t₀) :: cs, (⟨ci.1, .viaGet⟩ : Waiter) ∈ comp'.waiters := by
    intro ci hci
    rcases List.mem_cons.mp hci with rfl | hci'
    · exact g5 _ (List.mem_cons_self _ _)
    · exact g6 ci hci'
  have hC2 : lookupKey s.nextId (getMany k ((c₀, t₀) :: cs) s).comps = some comp' := by
    rw [hcons]
    exact g2
  have hE2 : lookupKey comp'.key (getMany k ((c₀, t₀) :: cs) s).entries =
      some ⟨.pending s.nextId, s.nextId⟩ := by
    rw [hkey, hcons]
    exact g1
  have heq := completeFailStep_pending_eq error hC2 hE2
  have hentries : (completeFailStep s.nextId error
      (getMany k ((c₀, t₀) :: cs) s)).entries = s.entries := by
    rw [heq]
    show eraseKey comp'.key (getMany k ((c₀, t₀) :: cs) s).entries = s.entries
    rw [hkey, hcons, g8, hstep]
    show eraseKey k (setKey k ⟨.pending s.nextId, s.nextId⟩ s.entries) = s.entries
    rw [eraseKey_setKey, eraseKey_of_lookup_none hE]
  refine ⟨hentries, by rw [hentries]; exact hE, ?_, ?_⟩
  · rw [heq]
    show (getMany k ((c₀, t₀) :: cs) s).resources = s.resources
    rw [hcons, g9, hstep]
  · intro ci hci
    rw [heq]
    refine List.mem_append.mpr (Or.inl ?_)
    refine List.mem_map.mpr ⟨⟨ci.1, .viaGet⟩, hwmem ci hci, ?_⟩
    simp [failureOutcome]

/-- Witness for C5: two callers join the computation for the absent key 1;
when it fails with error 9, the ledger returns to its pre-install state
and both callers receive error 9. -/
theorem lookup_failure_not_cached_witness :
    (completeFailStep (initCache 10).nextId 9
      (getMany 1 ((0, 0) :: [(7, 0)]) (initCache 10))).entries =
      (initCache 10).entries ∧
    lookupKey 1 (completeFailStep (initCache 10).nextId 9
      (getMany 1 ((0, 0) :: [(7, 0)]) (initCache 10))).entries = none ∧
    (completeFailStep (initCache 10).nextId 9
      (getMany 1 ((0, 0) :: [(7, 0)]) (initCache 10))).resources =
      (initCache 10).resources ∧
    (∀ ci ∈ ((0, 0) : Nat × Int) :: [(7, 0)],
      (ci.1, Mode.viaGet, Outcome.err 9) ∈
        (completeFailStep (initCache 10).nextId 9
          (getMany 1 ((0, 0) :: [(7, 0)]) (initCache 10))).results) :=
  lookup_failure_not_cached (initCache 10) 1 0 0 [(7, 0)] 9 (by decide)

end Cache

namespace Cache

/-- C2: for every `(key, generation)` pair, in every reachable cache state
the finalizer has run at most once, and it has run exactly once precisely
when both "the entry is unreachable from the ledger" and "the reference
count is zero" hold — whichever became true last triggered it.
Concretely: after `get` on key 1, completion, and `invalidate`, the value
obtained by the prior unreleased `get` is still unfinalized (count 0), and
releasing that handle runs the finalizer exactly once (count 1). -/
theorem finalizer_runs_exactly_once (cap : Nat) (l : List Act) :
    (∀ r ∈ (runActs l (initCache cap)).resources,
      r.finalizeCount ≤ 1 ∧
      (r.finalizeCount = 1 ↔ (r.reachable = false ∧ r.refCount = 0))) ∧
    (runActs [.get 0 1 0, .completeSuccess 0 42 100 0, .invalidate 1]
      (initCache 10)).resources = [⟨1, 0, 1, false, 0⟩] ∧
    containsFn 1 0 (runActs [.get 0 1 0, .completeSuccess 0 42 100 0, .invalidate 1]
      (initCache 10)) = false ∧
    (runActs [.get 0 1 0, .completeSuccess 0 42 100 0, .invalidate 1, .release 1 0]
      (initCache 10)).resources = [⟨1, 0, 0, false, 1⟩] := by
  refine ⟨?_, by decide, by decide, by decide⟩
  intro r hr
  have h := runActs_resOK cap l r hr
  unfold ResOK at h
  refine ⟨?_, ?_, ?_⟩
  · split at h <;> omega
  · intro h1
    by_contra hc
    rw [if_neg hc] at h
    omega
  · intro hc
    rw [if_pos hc] at h
    exact h

/-- Witness for C2: the resource of `(key 1, generation 0)` after the
invalidate-then-release scenario satisfies the exactly-once discipline. -/
theorem finalizer_runs_exactly_once_witness :
    ((⟨1, 0, 1, false, 0⟩ : Resource) ∈
      (runActs [.get 0 1 0, .completeSuccess 0 42 100 0, .invalidate 1]
        (initCache 10)).resources) ∧
    ((⟨1, 0, 1, false, 0⟩ : Resource).finalizeCount ≤ 1 ∧
     ((⟨1, 0, 1, false, 0⟩ : Resource).finalizeCount = 1 ↔
       ((⟨1, 0, 1, false, 0⟩ : Resource).reachable = false ∧
        (⟨1, 0, 1, false, 0⟩ : Resource).refCount = 0))) :=
  ⟨by decide,
   (finalizer_runs_exactly_once 10
     [.get 0 1 0, .completeSuccess 0 42 100 0, .invalidate 1]).1
     ⟨1, 0, 1, false, 0⟩ (by decide)⟩

/-- C3: in every reachable cache state the number of `Complete` entries
never exceeds the configured capacity — the eviction loop runs before a
new `Complete` entry becomes observable — and consequently, whenever no
lookup is in flight (every entry `Complete`, as after any sequence of
completed insertions), `size()` is bounded by the capacity. -/
theorem size_bounded_by_capacity (cap : Nat) (l : List Act) :
    completeCount (runActs l (initCache cap)).entries ≤ cap ∧
    (pendingCount (runActs l (initCache cap)).entries = 0 →
      sizeFn (runActs l (initCache cap)) ≤ cap) := by
  refine ⟨runActs_count cap l, ?_⟩
  intro hp
  have h := runActs_count cap l
  have hlen := length_eq_complete_add_pending (runActs l (initCache cap)).entries
  unfold sizeFn
  omega

/-- Witness for C3: three completed distinct-key insertions into a cache of
capacity 2 leave no pending entry and a size of at most 2. -/
theorem size_bounded_by_capacity_witness :
    completeCount (runActs
      [.get 0 1 0, .completeSuccess 0 10 100 0,
       .get 0 2 0, .completeSuccess 1 20 100 0,
       .get 0 3 0, .completeSuccess 2 30 100 0] (initCache 2)).entries ≤ 2 ∧
    pendingCount (runActs
      [.get 0 1 0, .completeSuccess 0 10 100 0,
       .get 0 2 0, .completeSuccess 1 20 100 0,
       .get 0 3 0, .completeSuccess 2 30 100 0] (initCache 2)).entries = 0 ∧
    sizeFn (runActs
      [.get 0 1 0, .completeSuccess 0 10 100 0,
       .get 0 2 0, .completeSuccess 1 20 100 0,
       .get 0 3 0, .completeSuccess 2 30 100 0] (initCache 2)) ≤ 2 := by
  refine ⟨(size_bounded_by_capacity 2 _).1, by decide,
    (size_bounded_by_capacity 2 _).2 (by decide)⟩

/-- C6: `getOption` never triggers a new lookup computation (the invocation
counter and the set of in-flight computations are unchanged by every
`getOption` step), it answers an absent key with the empty result
immediately, it likewise answers an expired `Complete` key with the empty
result rather than serving the stale value, and in every reachable state
no caller that joined through `getOption` ever receives an error or a
cancellation — a lookup error that `get` would raise is folded into the
empty result instead. -/
theorem getOption_never_computes_never_errors :
    (∀ (c k : Nat) (now : Int) (s : CacheState),
      (getOptionStep c k now s).lookupCount = s.lookupCount ∧
      (getOptionStep c k now s).comps.map Prod.fst = s.comps.map Prod.fst ∧
      (lookupKey k s.entries = none →
        (getOptionStep c k now s).results =
          (c, .viaGetOption, .emptyResult) :: s.results) ∧
      (∀ (v : Nat) (exp cAt la : Int) (refr : Option Nat) (g : Nat),
        lookupKey k s.entries = some ⟨.complete v exp cAt la refr, g⟩ →
        ¬ now < exp →
        (getOptionStep c k now s).results =
          (c, .viaGetOption, .emptyResult) :: s.results)) ∧
    (∀ (cap : Nat) (l : List Act) (x : Nat × Mode × Outcome),
      x ∈ (runActs l (initCache cap)).results → x.2.1 = Mode.viaGetOption →
      (∃ v g, x.2.2 = Outcome.ok v g) ∨ x.2.2 = Outcome.emptyResult) := by
  constructor
  · intro c k now s
    refine ⟨?_, ?_, ?_, ?_⟩
    · unfold getOptionStep
      repeat' split
      all_goals rfl
    · unfold getOptionStep
      repeat' split
      all_goals first | rfl | exact addWaiter_keys _ _ _
    · intro hE
      rw [getOptionStep_absent_eq c k now hE]
    · intro v exp cAt la refr g hE hge
      rw [getOptionStep_expired_eq c k now hE hge]
  · intro cap l x hx hm
    exact runActs_optOK cap l x hx hm

/-- Witness for C6: a `getOption` on the absent key 5 of a fresh cache
leaves the invocation counter at zero and yields the empty result, a
`getOption` at instant 7 on key 5 whose entry (value 42, created at 0,
time-to-live 2) is expired also yields the empty result instead of the
stale value, and the outcome recorded for a `getOption` caller in a run
that ends with a failed lookup is the empty result, never the error. -/
theorem getOption_never_computes_never_errors_witness :
    (getOptionStep 3 5 0 (initCache 4)).lookupCount = (initCache 4).lookupCount ∧
    (getOptionStep 3 5 0 (initCache 4)).comps.map Prod.fst =
      (initCache 4).comps.map Prod.fst ∧
    (getOptionStep 3 5 0 (initCache 4)).results =
      (3, .viaGetOption, .emptyResult) :: (initCache 4).results ∧
    (getOptionStep 3 5 7 (runActs [.get 0 5 0, .completeSuccess 0 42 2 0]
        (initCache 4))).results =
      (3, .viaGetOption, .emptyResult) ::
        (runActs [.get 0 5 0, .completeSuccess 0 42 2 0] (initCache 4)).results ∧
    (((3 : Nat), Mode.viaGetOption, Outcome.emptyResult) ∈
      (runActs [.get 0 5 0, .getOption 3 5 0, .completeFail 0 9]
        (initCache 4)).results) ∧
    ((∃ v g, (((3 : Nat), Mode.viaGetOption, Outcome.emptyResult) : Nat × Mode × Outcome).2.2 =
        Outcome.ok v g) ∨
      (((3 : Nat), Mode.viaGetOption, Outcome.emptyResult) : Nat × Mode × Outcome).2.2 =
        Outcome.emptyResult) := by
  obtain ⟨h1, h2⟩ := getOption_never_computes_never_errors
  obtain ⟨a, b, cimpl, dimpl⟩ := h1 3 5 0 (initCache 4)
  obtain ⟨-, -, -, dexp⟩ := h1 3 5 7
    (runActs [.get 0 5 0, .completeSuccess 0 42 2 0] (initCache 4))
  exact ⟨a, b, cimpl (by decide),
    dexp 42 2 0 0 none 0 (by decide) (by decide), by decide,
    h2 4 [.get 0 5 0, .getOption 3 5 0, .completeFail 0 9]
      (3, Mode.viaGetOption, Outcome.emptyResult) (by decide) rfl⟩

end Cache

namespace Cache

/-- C8: when a lookup outcome's configured time-to-live duration is zero or
negative, the outcome is never cached: the published `Complete` entry is
immediately expired, so at every access instant not earlier than the
completion instant `contains` is false and a `get` on the key invokes the
lookup function again rather than serving the stored value. -/
theorem nonpositive_ttl_never_cached
    (cid v : Nat) (d now : Int) (s : CacheState) (comp : Comp) (gE : Nat)
    (hd : d ≤ 0)
    (hC : lookupKey cid s.comps = some comp)
    (hE : lookupKey comp.key s.entries = some ⟨.pending cid, gE⟩) :
    (∀ t : Int, now ≤ t →
      containsFn comp.key t (completeSuccessStep cid v d now s) = false) ∧
    (∀ (c : Nat) (t : Int), now ≤ t →
      (getStep c comp.key t (completeSuccessStep cid v d now s)).lookupCount =
        (completeSuccessStep cid v d now s).lookupCount + 1) := by
  have heq := completeSuccessStep_pending_eq v d now hC hE
  have hself : lookupKey comp.key
      (setKey comp.key ⟨.complete v (now + d) now now none, comp.generation⟩ s.entries) =
      some ⟨.complete v (now + d) now now none, comp.generation⟩ :=
    lookupKey_setKey_self comp.key _ s.entries
  have hlookup : lookupKey comp.key (completeSuccessStep cid v d now s).entries =
      some ⟨.complete v (now + d) now now none, comp.generation⟩ ∨
      lookupKey comp.key (completeSuccessStep cid v d now s).entries = none := by
    rw [heq]
    rcases evictLoop_lookup s.entries.length _ comp.key with h | h
    · left
      rw [h]
      exact hself
    · right
      exact h
  constructor
  · intro t ht
    unfold containsFn
    rcases hlookup with h | h
    · rw [h]
      simp only [decide_eq_false_iff_not]
      omega
    · rw [h]
  · intro c t ht
    rcases hlookup with h | h
    · rw [getStep_expired_miss_eq c comp.key t h (by omega)]
    · rw [getStep_absent_eq c comp.key t h]

/-- Witness for C8: completing the pending lookup for key 3 with a
zero-duration time-to-live at instant 0 leaves `contains` false at
instant 1 and makes a later `get` invoke the lookup again. -/
theorem nonpositive_ttl_never_cached_witness :
    containsFn 3 1 (completeSuccessStep 0 5 0 0 (getStep 0 3 0 (initCache 5))) = false ∧
    (getStep 7 3 1 (completeSuccessStep 0 5 0 0 (getStep 0 3 0 (initCache 5)))).lookupCount =
      (completeSuccessStep 0 5 0 0 (getStep 0 3 0 (initCache 5))).lookupCount + 1 := by
  have h := nonpositive_ttl_never_cached 0 5 0 0 (getStep 0 3 0 (initCache 5))
    ⟨3, 0, [⟨0, .viaGet⟩]⟩ 0 (by decide) (by decide) (by decide)
  exact ⟨h.1 1 (by decide), h.2 7 1 (by decide)⟩

/-- C9: `contains` is true exactly when the ledger holds an entry for the
key that is either `Pending` or `Complete` and not yet expired at the
current instant, and it is false for every key without an entry. -/
theorem contains_iff_pending_or_unexpired (s : CacheState) (k : Nat) (now : Int) :
    (containsFn k now s = true ↔
      ∃ e, lookupKey k s.entries = some e ∧
        ((∃ cid, e.state = .pending cid) ∨
         (∃ v exp cAt la refr,
           e.state = .complete v exp cAt la refr ∧ now < exp))) ∧
    (lookupKey k s.entries = none → containsFn k now s = false) := by
  constructor
  · unfold containsFn
    split
    · rename_i hE
      simp [hE]
    · rename_i e hE
      split
      · rename_i cid hSt
        simp only [true_iff]
        exact ⟨e, hE, Or.inl ⟨cid, hSt⟩⟩
      · rename_i v exp cAt la refr hSt
        rw [decide_eq_true_iff]
        constructor
        · intro hlt
          exact ⟨e, hE, Or.inr ⟨v, exp, cAt, la, refr, hSt, hlt⟩⟩
        · rintro ⟨e', hE', hor⟩
          rw [hE] at hE'
          cases hE'
          rcases hor with ⟨cid, hP⟩ | ⟨v', exp', cAt', la', refr', hCpl, hlt⟩
          · rw [hSt] at hP
            exact absurd hP (by simp)
          · rw [hSt] at hCpl
            injection hCpl with h1 h2 h3 h4 h5
            omega
  · intro hE
    unfold containsFn
    rw [hE]

/-- Witness for C9: a fresh cache contains no key, and after an
installation and completion the key is reported present while unexpired. -/
theorem contains_iff_pending_or_unexpired_witness :
    containsFn 3 0 (initCache 1) = false ∧
    (containsFn 1 5 (runActs [.get 0 1 0, .completeSuccess 0 42 100 0]
      (initCache 4)) = true ↔
      ∃ e, lookupKey 1 (runActs [.get 0 1 0, .completeSuccess 0 42 100 0]
          (initCache 4)).entries = some e ∧
        ((∃ cid, e.state = .pending cid) ∨
         (∃ v exp cAt la refr,
           e.state = .complete v exp cAt la refr ∧ (5 : Int) < exp))) :=
  ⟨(contains_iff_pending_or_unexpired (initCache 1) 3 0).2 (by decide),
   (contains_iff_pending_or_unexpired
     (runActs [.get 0 1 0, .completeSuccess 0 42 100 0] (initCache 4)) 1 5).1⟩

end Cache

namespace Cache

/-- C4: with time-to-live `T`, a `Complete` entry created at instant 0 is
still contained (not expired) at access instant `t₁` exactly when
`t₁ < 0 + T` — i.e. it is expired iff `t₁ ≥ t₀ + T`, evaluated lazily at
access time — and consequently a `get` after advancing the clock by
`T + ε` invokes the lookup a second time (counter 2) while a `get` after
advancing by `T − ε` serves the cached value (counter stays 1). -/
theorem ttl_expiry_roundtrip (T ε : Int) (hε : 0 < ε) :
    lookupKey 5 (completeSuccessStep 0 42 T 0
      (getStep 0 5 0 (initCache 10))).entries =
      some ⟨.complete 42 (0 + T) 0 0 none, 0⟩ ∧
    (∀ t₁ : Int, containsFn 5 t₁ (completeSuccessStep 0 42 T 0
      (getStep 0 5 0 (initCache 10))) = decide (t₁ < 0 + T)) ∧
    (completeSuccessStep 0 42 T 0 (getStep 0 5 0 (initCache 10))).lookupCount = 1 ∧
    (getStep 1 5 (T + ε) (completeSuccessStep 0 42 T 0
      (getStep 0 5 0 (initCache 10)))).lookupCount = 2 ∧
    (getStep 1 5 (T - ε) (completeSuccessStep 0 42 T 0
      (getStep 0 5 0 (initCache 10)))).lookupCount = 1 := by
  have hs1 : getStep 0 5 0 (initCache 10) =
      ⟨10, [(5, ⟨.pending 0, 0⟩)], [(0, ⟨5, 0, [⟨0, .viaGet⟩]⟩)],
       [], 0, 1, 1, [], 1⟩ := by
    rfl
  have hC : lookupKey 0 (getStep 0 5 0 (initCache 10)).comps =
      some ⟨5, 0, [⟨0, .viaGet⟩]⟩ := by
    rw [hs1]
    rfl
  have hEp : lookupKey 5 (getStep 0 5 0 (initCache 10)).entries =
      some ⟨.pending 0, 0⟩ := by
    rw [hs1]
    rfl
  have heq := completeSuccessStep_pending_eq 42 T 0 hC hEp
  have hcc : completeCount (setKey 5
        ⟨.complete 42 (0 + T) 0 0 none, 0⟩
        (getStep 0 5 0 (initCache 10)).entries) ≤ (10 : Nat) := by
    rw [completeCount_setKey_complete 5 ⟨.complete 42 (0 + T) 0 0 none, 0⟩
      (by simp [isCompleteE]) _]
    rw [hs1]
    decide
  have heq2 : completeSuccessStep 0 42 T 0 (getStep 0 5 0 (initCache 10)) =
      { getStep 0 5 0 (initCache 10) with
        entries := setKey 5 ⟨.complete 42 (0 + T) 0 0 none, 0⟩
          (getStep 0 5 0 (initCache 10)).entries,
        comps := eraseKey 0 (getStep 0 5 0 (initCache 10)).comps,
        resources := ⟨5, 0, 1, true, 0⟩ ::
          (getStep 0 5 0 (initCache 10)).resources,
        results := [(0, .viaGet, .ok 42 0)] ++
          (getStep 0 5 0 (initCache 10)).results } := by
    rw [heq]
    exact evictLoop_eq_self _ _ hcc
  have hl : lookupKey 5 (completeSuccessStep 0 42 T 0
      (getStep 0 5 0 (initCache 10))).entries =
      some ⟨.complete 42 (0 + T) 0 0 none, 0⟩ := by
    rw [heq2]
    exact lookupKey_setKey_self 5 _ _
  refine ⟨hl, ?_, ?_, ?_, ?_⟩
  · intro t₁
    unfold containsFn
    rw [hl]
  · rw [heq2, hs1]
  · rw [getStep_expired_miss_eq 1 5 (T + ε) hl (by omega), heq2, hs1]
  · rw [getStep_hit_eq 1 5 (T - ε) hl (by omega), heq2, hs1]

/-- Witness for C4: with time-to-live 10 and ε = 1: the entry expires at
instant 10, a get at instant 11 re-invokes the lookup (counter 2), a get
at instant 9 serves the cached value (counter 1). -/
theorem ttl_expiry_roundtrip_witness :
    lookupKey 5 (completeSuccessStep 0 42 10 0
      (getStep 0 5 0 (initCache 10))).entries =
      some ⟨.complete 42 (0 + 10) 0 0 none, 0⟩ ∧
    containsFn 5 3 (completeSuccessStep 0 42 10 0
      (getStep 0 5 0 (initCache 10))) = decide ((3 : Int) < 0 + 10) ∧
    (completeSuccessStep 0 42 10 0 (getStep 0 5 0 (initCache 10))).lookupCount = 1 ∧
    (getStep 1 5 (10 + 1) (completeSuccessStep 0 42 10 0
      (getStep 0 5 0 (initCache 10)))).lookupCount = 2 ∧
    (getStep 1 5 (10 - 1) (completeSuccessStep 0 42 10 0
      (getStep 0 5 0 (initCache 10)))).lookupCount = 1 := by
  obtain ⟨h1, h2, h3, h4, h5⟩ := ttl_expiry_roundtrip 10 1 (by decide)
  exact ⟨h1, h2 3, h3, h4, h5⟩

end Cache

namespace Cache

/-- C7: while a refresh computation for a key is in flight, a concurrent
`get` or `getOption` is served the current unexpired `Complete` value in
one atomic step — it joins no computation, invokes no lookup, and is
handed the old value immediately; only when the new computation completes
is the ledger slot atomically swapped to the new generation, and the
superseded value's resource keeps its reference count with an unfired
finalizer for as long as a consumer still holds a handle to it. -/
theorem refresh_nonblocking_swap
    (s : CacheState) (c k v₀ : Nat) (exp₀ cAt₀ la₀ : Int) (g₀ rcid : Nat)
    (comp : Comp) (now : Int)
    (hE : lookupKey k s.entries = some ⟨.complete v₀ exp₀ cAt₀ la₀ (some rcid), g₀⟩)
    (hlt : now < exp₀)
    (hC : lookupKey rcid s.comps = some comp)
    (hkey : comp.key = k)
    (hres : ∀ r ∈ s.resources, ResOK r)
    (hcap : completeCount s.entries ≤ s.capacity) :
    ((getStep c k now s).results = (c, .viaGet, .ok v₀ g₀) :: s.results ∧
     (getStep c k now s).comps = s.comps ∧
     (getStep c k now s).lookupCount = s.lookupCount) ∧
    ((getOptionStep c k now s).results =
       (c, .viaGetOption, .ok v₀ g₀) :: s.results ∧
     (getOptionStep c k now s).comps = s.comps ∧
     (getOptionStep c k now s).lookupCount = s.lookupCount) ∧
    (∀ (v : Nat) (d t' : Int),
      lookupKey k (completeSuccessStep rcid v d t' s).entries =
        some ⟨.complete v (t' + d) t' t' none, comp.generation⟩ ∧
      (∀ r ∈ s.resources, r.key = k → r.generation = g₀ → 0 < r.refCount →
        ∃ r' ∈ (completeSuccessStep rcid v d t' s).resources,
          r'.key = k ∧ r'.generation = g₀ ∧ r'.refCount = r.refCount ∧
          r'.finalizeCount = 0 ∧ r'.reachable = false)) := by
  have hget := getStep_hit_eq c k now hE hlt
  have hopt := getOptionStep_hit_eq c k now hE hlt
  refine ⟨⟨by rw [hget], by rw [hget], by rw [hget]⟩,
          ⟨by rw [hopt], by rw [hopt], by rw [hopt]⟩, ?_⟩
  intro v d t'
  have hE' : lookupKey comp.key s.entries =
      some ⟨.complete v₀ exp₀ cAt₀ la₀ (some rcid), g₀⟩ := by
    rw [hkey]
    exact hE
  have heq := completeSuccessStep_refresh_eq v d t' hC hE'
  have hmem : (comp.key, (⟨.complete v₀ exp₀ cAt₀ la₀ (some rcid), g₀⟩ : Entry)) ∈
      s.entries := by
    rw [hkey]
    exact lookupKey_some_mem hE
  have hone := countP_eraseKey_add_one_le
    (p := fun p => isCompleteE p.2) (l := s.entries) hmem (by simp [isCompleteE])
  have hcc : completeCount (setKey comp.key
      ⟨.complete v (t' + d) t' t' none, comp.generation⟩ s.entries) ≤ s.capacity := by
    rw [completeCount_setKey_complete comp.key
      ⟨.complete v (t' + d) t' t' none, comp.generation⟩ (by simp [isCompleteE]) _]
    simp only [completeCount] at hcap ⊢
    omega
  have heq2 : completeSuccessStep rcid v d t' s =
      { s with
        entries := setKey comp.key
          ⟨.complete v (t' + d) t' t' none, comp.generation⟩ s.entries,
        comps := eraseKey rcid s.comps,
        resources := ⟨comp.key, comp.generation,
          (comp.waiters.filter (fun w => w.mode ≠ .viaRefresh)).length,
          true, 0⟩ :: markUnreachable comp.key g₀ s.resources,
        results := comp.waiters.map
          (fun w => (w.caller, w.mode, successOutcome v comp.generation w.mode))
          ++ s.results } := by
    rw [heq]
    exact evictLoop_eq_self _ _ hcc
  constructor
  · rw [heq2]
    show lookupKey k (setKey comp.key _ s.entries) = _
    rw [hkey]
    exact lookupKey_setKey_self k _ s.entries
  · intro r hr hk hg hrc
    have hROK := hres r hr
    unfold ResOK at hROK
    cases hreach : r.reachable with
    | true =>
      have hfc : r.finalizeCount = 0 := by
        rw [if_neg (by simp [hreach])] at hROK
        exact hROK
      refine ⟨{ r with reachable := false }, ?_, by simp [hk], by simp [hg],
        by simp, by simp [hfc], by simp⟩
      rw [heq2]
      refine List.mem_cons_of_mem _ ?_
      refine List.mem_map.mpr ⟨r, hr, ?_⟩
      rw [if_pos ⟨by rw [hk, hkey], by rw [hg], by rw [hreach]⟩]
      rw [if_neg (by omega)]
    | false =>
      have hfc : r.finalizeCount = 0 := by
        rw [if_neg (by simp [hreach]; omega)] at hROK
        exact hROK
      refine ⟨r, ?_, hk, hg, rfl, hfc, hreach⟩
      rw [heq2]
      refine List.mem_cons_of_mem _ ?_
      refine List.mem_map.mpr ⟨r, hr, ?_⟩
      rw [if_neg (by simp [hreach])]

/-- Witness for C7: with key 7 holding value 5 (generation 0, expiry 100)
and a refresh in flight as computation 1, a `get` at instant 1 is served
the old value without blocking; completing the refresh with value 9 swaps
the slot to generation 1 and leaves the old generation's held resource
unfinalized with its reference count intact. -/
theorem refresh_nonblocking_swap_witness :
    ((getStep 3 7 1 (runActs [.get 0 7 0, .completeSuccess 0 5 100 0, .refresh 1 7]
        (initCache 2))).results =
      (3, .viaGet, .ok 5 0) ::
        (runActs [.get 0 7 0, .completeSuccess 0 5 100 0, .refresh 1 7]
          (initCache 2)).results ∧
     (getStep 3 7 1 (runActs [.get 0 7 0, .completeSuccess 0 5 100 0, .refresh 1 7]
        (initCache 2))).comps =
      (runActs [.get 0 7 0, .completeSuccess 0 5 100 0, .refresh 1 7]
        (initCache 2)).comps ∧
     (getStep 3 7 1 (runActs [.get 0 7 0, .completeSuccess 0 5 100 0, .refresh 1 7]
        (initCache 2))).lookupCount =
      (runActs [.get 0 7 0, .completeSuccess 0 5 100 0, .refresh 1 7]
        (initCache 2)).lookupCount) ∧
    lookupKey 7 (completeSuccessStep 1 9 50 10
      (runActs [.get 0 7 0, .completeSuccess 0 5 100 0, .refresh 1 7]
        (initCache 2))).entries =
      some ⟨.complete 9 (10 + 50) 10 10 none, 1⟩ ∧
    (∃ r' ∈ (completeSuccessStep 1 9 50 10
        (runActs [.get 0 7 0, .completeSuccess 0 5 100 0, .refresh 1 7]
          (initCache 2))).resources,
      r'.key = 7 ∧ r'.generation = 0 ∧
      r'.refCount = (⟨7, 0, 1, true, 0⟩ : Resource).refCount ∧
      r'.finalizeCount = 0 ∧ r'.reachable = false) := by
  have h := refresh_nonblocking_swap
    (runActs [.get 0 7 0, .completeSuccess 0 5 100 0, .refresh 1 7] (initCache 2))
    3 7 5 100 0 0 0 1 ⟨7, 1, [⟨1, .viaRefresh⟩]⟩ 1
    (by decide) (by decide) (by decide) rfl (by decide) (by decide)
  obtain ⟨hget, hopt, hswap⟩ := h
  obtain ⟨hlook, hold⟩ := hswap 9 50 10
  exact ⟨hget, hlook,
    hold ⟨7, 0, 1, true, 0⟩ (by decide) rfl rfl (by decide)⟩

end Cache
